import Mathlib

/-!
Verification of the chemistry-text rendering engine of the repository:
a shallow embedding of `markdown_converter.py` and `pipeline.py`.
Strings are modelled as `List Char` (ASCII semantics for the character
classes used by the Python regexes); the model-call orchestration is
modelled over explicit call oracles.
-/

namespace ChemVit

/-- Python's `\s` character class restricted to ASCII
(space, tab, newline, carriage return, vertical tab, form feed). -/
def pyWs (c : Char) : Bool :=
  c = ' ' || c = '\t' || c = '\n' || c = '\r' || c = '\x0b' || c = '\x0c'

/-- `[A-Za-z]`. -/
def asciiLetter (c : Char) : Bool :=
  ('A' ≤ c && c ≤ 'Z') || ('a' ≤ c && c ≤ 'z')

/-- `\d` (ASCII). -/
def asciiDigit (c : Char) : Bool :=
  '0' ≤ c && c ≤ '9'

/-- `[a-z]`. -/
def asciiLower (c : Char) : Bool :=
  'a' ≤ c && c ≤ 'z'

/-- `[A-Z]`. -/
def asciiUpper (c : Char) : Bool :=
  'A' ≤ c && c ≤ 'Z'

/-- A styled run `(text, subscript, superscript)` as built by the converters. -/
abbrev Run := List Char × Bool × Bool

/-! ## `MarkdownToWordConverter.normalize_chem_spacing`

Each of the four `re.sub` rules of the source deletes every maximal
whitespace run whose immediately preceding character satisfies the
lookbehind class `L` and whose immediately following character satisfies
the lookahead class `R`.  `ruleGo` walks the string carrying the previous
character (`prev`) and the pending whitespace run (`pend`). -/

/-- Lookbehind test at an optional previous character: at the start of
the string (no previous character) a lookbehind never matches. -/
def optL (L : Char → Bool) : Option Char → Bool
  | some p => L p
  | none => false

/-- One `re.sub(r"(?<=L)\s+(?=R)", "", s)` pass of `normalize_chem_spacing`. -/
def ruleGo (L R : Char → Bool) : Option Char → List Char → List Char → List Char
  | _, pend, [] => pend
  | prev, pend, c :: cs =>
    if pyWs c then ruleGo L R prev (pend ++ [c]) cs
    else if pend ≠ [] && optL L prev && R c then
      c :: ruleGo L R (some c) [] cs
    else
      pend ++ c :: ruleGo L R (some c) [] cs

/-- `re.sub(r"(?<=L)\s+(?=R)", "", s)` for the given flank classes. -/
def rulePass (L R : Char → Bool) (s : List Char) : List Char :=
  ruleGo L R none [] s

/-- Lookahead class of rule 2: `[A-Za-z(\[\{]`. -/
def rule2R (c : Char) : Bool :=
  asciiLetter c || c = '(' || c = '[' || c = '\x7b'

/-- Lookbehind class of rule 4: `[)\]\}]`. -/
def rule4L (c : Char) : Bool :=
  c = ')' || c = ']' || c = '\x7d'

/-- `re.sub(r"\s+", " ", s)`: collapse each maximal whitespace run to a
single space (`prevWs` records whether the previous character was
whitespace). -/
def collapseGo : Bool → List Char → List Char
  | _, [] => []
  | prevWs, c :: cs =>
    if pyWs c then (if prevWs then [] else [' ']) ++ collapseGo true cs
    else c :: collapseGo false cs

/-- `re.sub(r"\s+", " ", s)`. -/
def collapseWs (s : List Char) : List Char :=
  collapseGo false s

/-- Leading-whitespace trim (half of Python's `str.strip()`). -/
def ltrim (s : List Char) : List Char :=
  s.dropWhile pyWs

/-- Trailing-whitespace trim (half of Python's `str.strip()`). -/
def rtrim : List Char → List Char
  | [] => []
  | c :: cs =>
    let r := rtrim cs
    if r = [] && pyWs c then [] else c :: r

/-- Python's `str.strip()` (ASCII whitespace). -/
def pyStrip (s : List Char) : List Char :=
  rtrim (ltrim s)

/-- `MarkdownToWordConverter.normalize_chem_spacing`: the four flank-rule
deletions in source order, then whitespace collapsing and stripping. -/
def normalize_chem_spacing (s : List Char) : List Char :=
  pyStrip (collapseWs
    (rulePass rule4L asciiDigit
      (rulePass asciiLower asciiUpper
        (rulePass asciiDigit rule2R
          (rulePass asciiLetter asciiDigit s)))))

/-- Checker for one flank rule: no maximal whitespace run of the string
is flanked by an `L`-character and an `R`-character (`prev` is the
character before the scan window, `inWs` whether the window starts
inside a whitespace run).  `rulePass L R` is the identity exactly on
such strings. -/
def ntGo (L R : Char → Bool) : Option Char → Bool → List Char → Bool
  | _, _, [] => true
  | prev, inWs, c :: cs =>
    if pyWs c then ntGo L R prev true cs
    else (!(inWs && optL L prev && R c)) && ntGo L R (some c) false cs

/-- Checker for collapsed whitespace: every whitespace character is a
single space not preceded by whitespace (`b` records whether the
previous character was whitespace). -/
def wsShape : Bool → List Char → Bool
  | _, [] => true
  | b, c :: cs =>
    if pyWs c then ((!b) && (c = ' ')) && wsShape true cs
    else wsShape false cs

/-! ## `MarkdownToWordConverter.latex_like_to_runs` -/

/-- Flush of the accumulated plain-text buffer: a single unstyled run,
or nothing when the buffer is empty. -/
def flushBuf (buf : List Char) : List Run :=
  if buf = [] then [] else [(buf, false, false)]

/-- The scan loop of `latex_like_to_runs`.  On `^`/`_` followed by `{` the
styled content runs to the *first* `}` (Python's `content.find("}", i+1)`);
without a closing brace the marker is kept as a literal character and the
scan resumes at the `{`.  `fuel` only bounds the recursion; the wrapper
supplies enough for the whole input. -/
def lltrGo : Nat → List Char → List Char → List Run
  | 0, buf, s => flushBuf (buf ++ s)
  | _ + 1, buf, [] => flushBuf buf
  | fuel + 1, buf, c :: cs =>
    if c = '_' || c = '^' then
      match cs with
      | '{' :: rest =>
        if rest.contains '}' then
          flushBuf buf ++
            (rest.takeWhile (· ≠ '}'), c == '_', !(c == '_')) ::
              lltrGo fuel [] ((rest.dropWhile (· ≠ '}')).drop 1)
        else lltrGo fuel (buf ++ [c]) ('{' :: rest)
      | d :: rest =>
        flushBuf buf ++ ([d], c == '_', !(c == '_')) :: lltrGo fuel [] rest
      | [] => flushBuf (buf ++ [c])
    else lltrGo fuel (buf ++ [c]) cs

/-- `MarkdownToWordConverter.latex_like_to_runs`. -/
def latex_like_to_runs (s : List Char) : List Run :=
  lltrGo (s.length + 1) [] s

/-! ## `MarkdownToWordConverter._split_for_subscripts` -/

/-- Bare-digit subscript trigger: the previous character is a letter or a
closing bracket (`text[i-1].isalpha() or text[i-1] in ")]}"`); at the very
start of the string (`i == 0`) there is no trigger. -/
def digitTrig : Option Char → Bool
  | none => false
  | some p => asciiLetter p || p = ')' || p = ']' || p = '\x7d'

/-- The scan loop of `_split_for_subscripts` as a state machine:
`inDigits` tells whether `buf` is accumulating a subscript digit run,
`prev` is the previously consumed character. -/
def sfsGo (buf : List Char) (inDigits : Bool) (prev : Option Char) :
    List Char → List Run
  | [] => if inDigits then [(buf, true, false)] else flushBuf buf
  | c :: cs =>
    if inDigits then
      if asciiDigit c then sfsGo (buf ++ [c]) true (some c) cs
      else (buf, true, false) :: sfsGo [c] false (some c) cs
    else
      if asciiDigit c && digitTrig prev then
        flushBuf buf ++ sfsGo [c] true (some c) cs
      else sfsGo (buf ++ [c]) false (some c) cs

/-- `MarkdownToWordConverter._split_for_subscripts`. -/
def split_for_subscripts (s : List Char) : List Run :=
  sfsGo [] false none s

/-! ## `MarkdownToWordConverter._make_runs` -/

/-- The per-run step of `_make_runs`: styled runs from the explicit scan
pass through unchanged, unstyled runs go through the bare-digit
inference. -/
def makeRunsStep (r : Run) : List Run :=
  if r.2.1 || r.2.2 then [r] else split_for_subscripts r.1

/-- `MarkdownToWordConverter._make_runs`: normalize, explicit-markup scan,
then bare-digit inference on the unstyled runs only. -/
def make_runs (s : List Char) : List Run :=
  ((latex_like_to_runs (normalize_chem_spacing s)).map makeRunsStep).flatten

/-! ## `_BaselineDocxWriter` (`pipeline.py`) -/

/-- The loop of `_BaselineDocxWriter._find_matching_brace`: a depth counter
over the characters from the start position, returning the index of the
brace that brings the depth back to zero (`-1`, modelled as `none`,
otherwise). -/
def fmbGo : Int → Nat → List Char → Option Nat
  | _, _, [] => none
  | depth, i, c :: cs =>
    if c = '\x7b' then fmbGo (depth + 1) (i + 1) cs
    else if c = '\x7d' then
      if depth - 1 = 0 then some i else fmbGo (depth - 1) (i + 1) cs
    else fmbGo depth (i + 1) cs

/-- `_BaselineDocxWriter._find_matching_brace(s, 0)`. -/
def find_matching_brace (s : List Char) : Option Nat :=
  fmbGo 0 0 s

/-- The sign class of the superscript regex `[+\-±∓]?\d+`. -/
def supSign (c : Char) : Bool :=
  c = '+' || c = '-' || c = '±' || c = '∓'

/-- `re.match(r"\d+", s)`: the leading digit run and the remainder. -/
def subMatch (s : List Char) : Option (List Char × List Char) :=
  let ds := s.takeWhile asciiDigit
  if ds = [] then none else some (ds, s.drop ds.length)

/-- `re.match(r"[+\-±∓]?\d+", s)`: an optional sign immediately followed
by a digit run; with a sign but no digits the regex backtracks to the
signless alternative, which then also fails. -/
def supMatch (s : List Char) : Option (List Char × List Char) :=
  match s with
  | c :: rest =>
    if supSign c then
      let ds := rest.takeWhile asciiDigit
      if ds = [] then none else some (c :: ds, rest.drop ds.length)
    else subMatch s
  | [] => none

/-- `_BaselineDocxWriter._add_run` for a styled segment: empty text adds
no run.  The writer's run carries `(text, subscript, superscript)`. -/
def styledAdd (content : List Char) (isSup : Bool) : List Run :=
  if content = [] then [] else [(content, !isSup, isSup)]

/-- The scan loop of `_BaselineDocxWriter._add_parsed_line`.  On `^`/`_`
followed by `{` the content runs to the depth-matching `}`; without one
the marker stays literal.  Without a brace the content is the regex match
(`[+\-±∓]?\d+` for `^`, `\d+` for `_`), else the single next character —
and with no next character at all the Python indexes past the end of the
string (`line[i]` with `i == n`), modelled as `none`. -/
def plGo : Nat → List Char → List Char → Option (List Run)
  | 0, _, _ => none
  | _ + 1, normal, [] => some (flushBuf normal)
  | fuel + 1, normal, c :: cs =>
    if c = '^' || c = '_' then
      match cs with
      | [] => none
      | d :: rest =>
        if d = '\x7b' then
          match find_matching_brace (d :: rest) with
          | none => plGo fuel (normal ++ [c]) (d :: rest)
          | some j =>
            (plGo fuel [] (rest.drop j)).map (fun rs =>
              flushBuf normal ++ styledAdd (rest.take (j - 1)) (c == '^') ++ rs)
        else
          match (if c = '^' then supMatch (d :: rest) else subMatch (d :: rest)) with
          | some (content, rest2) =>
            (plGo fuel [] rest2).map (fun rs =>
              flushBuf normal ++ styledAdd content (c == '^') ++ rs)
          | none =>
            (plGo fuel [] rest).map (fun rs =>
              flushBuf normal ++ styledAdd [d] (c == '^') ++ rs)
    else plGo fuel (normal ++ [c]) cs

/-- The runs `_BaselineDocxWriter._add_parsed_line` adds to a paragraph
(`none` when the Python raises `IndexError` on a trailing `^`/`_`). -/
def add_parsed_line (s : List Char) : Option (List Run) :=
  plGo (s.length + 1) [] s

/-! ## `MarkdownToWordConverter.convert_latex_to_simple`

Each `re.sub` pass is a sequential leftmost-match rewrite: `rewriteGo`
tries the pass's matcher at every position from the left, replaces the
match and continues after it.  Every matcher consumes at least one
character, so fuel equal to the input length always suffices. -/

/-- Match a literal token at the head of the input, returning the rest. -/
def dropLit : List Char → List Char → Option (List Char)
  | [], l => some l
  | _ :: _, [] => none
  | c :: cs, d :: ds => if c = d then dropLit cs ds else none

/-- A regex-substitution matcher: given a suffix of the input, the
replacement text and the remainder after the match (if a match starts
exactly here). -/
abbrev Matcher := List Char → Option (List Char × List Char)

/-- `re.sub` over the whole string: try the matcher at every position,
left to right, continuing after each replacement. -/
def rewriteGo (m : Matcher) : Nat → List Char → List Char
  | _, [] => []
  | 0, l => l
  | fuel + 1, c :: cs =>
    match m (c :: cs) with
    | some (rep, rest) => rep ++ rewriteGo m fuel rest
    | none => c :: rewriteGo m fuel cs

/-- One full `re.sub(pattern, repl, s)` pass. -/
def rewriteAll (m : Matcher) (s : List Char) : List Char :=
  rewriteGo m s.length s

/-- `\cmd{X} → X` for a fixed command name (`\mathrm`, `\text`):
pattern `\\name\{([^}]+)\}` with nonempty brace content. -/
def unwrapCmd (name : List Char) : Matcher := fun l =>
  match dropLit ('\\' :: name ++ ['\x7b']) l with
  | none => none
  | some r =>
    let inner := r.takeWhile (· ≠ '\x7d')
    match r.dropWhile (· ≠ '\x7d') with
    | '\x7d' :: after => if inner = [] then none else some (inner, after)
    | _ => none

/-- A literal-for-literal replacement matcher. -/
def litRep (pat rep : List Char) : Matcher := fun l =>
  (dropLit pat l).map (fun rest => (rep, rest))

/-- `\\to|\\longrightarrow|-{1,2}>` → `→` (alternatives in source order;
`-{1,2}` greedily prefers `-->` over `->`). -/
def arrowRight : Matcher := fun l =>
  match dropLit ('\\' :: 't' :: 'o' :: []) l with
  | some rest => some ("→".data, rest)
  | none =>
    match dropLit ('\\' :: "longrightarrow".data) l with
    | some rest => some ("→".data, rest)
    | none =>
      match dropLit "-->".data l with
      | some rest => some ("→".data, rest)
      | none => (dropLit "->".data l).map (fun rest => ("→".data, rest))

/-- `\\leftrightarrow|<->|<=>` → `↔`. -/
def arrowBoth : Matcher := fun l =>
  match dropLit ('\\' :: "leftrightarrow".data) l with
  | some rest => some ("↔".data, rest)
  | none =>
    match dropLit "<->".data l with
    | some rest => some ("↔".data, rest)
    | none => (dropLit "<=>".data l).map (fun rest => ("↔".data, rest))

/-- `\\xrightarrow\[[^]]*\]\{[^}]*\}` → `→`. -/
def xrightarrowM : Matcher := fun l =>
  match dropLit ('\\' :: "xrightarrow".data ++ ['[']) l with
  | none => none
  | some r =>
    match r.dropWhile (· ≠ ']') with
    | ']' :: r2 =>
      match r2 with
      | '\x7b' :: r3 =>
        match r3.dropWhile (· ≠ '\x7d') with
        | '\x7d' :: after => some ("→".data, after)
        | _ => none
      | _ => none
    | _ => none

/-- `\\begin\{[^}]+\}|\\end\{[^}]+\}` → removed. -/
def beginEndM : Matcher := fun l =>
  match unwrapCmd "begin".data l with
  | some (_, after) => some ([], after)
  | none =>
    match unwrapCmd "end".data l with
    | some (_, after) => some ([], after)
    | none => none

/-- `\s*&\s*` → a single space (fires where a whitespace run is followed
by `&`). -/
def ampM : Matcher := fun l =>
  match l.dropWhile pyWs with
  | '&' :: r => some ([' '], r.dropWhile pyWs)
  | _ => none

/-- The OCR-artifact pattern `\{\s*[^}]*\s*\}\s*\{=\}` → `" = "`. -/
def artifactM : Matcher := fun l =>
  match l with
  | '\x7b' :: r =>
    match r.dropWhile (· ≠ '\x7d') with
    | '\x7d' :: r2 =>
      match r2.dropWhile pyWs with
      | '\x7b' :: '=' :: '\x7d' :: after => some ((' ' :: '=' :: ' ' :: []), after)
      | _ => none
    | _ => none
  | _ => none

/-- Generic `\\[a-zA-Z]+\*?\{([^}]*)\}` → `\1` (brace content may be
empty). -/
def genUnwrapM : Matcher := fun l =>
  match l with
  | '\\' :: r =>
    let name := r.takeWhile asciiLetter
    if name = [] then none
    else
      let r2 := r.drop name.length
      let r3 := match r2 with
        | '*' :: '\x7b' :: r3 => some r3
        | '\x7b' :: r3 => some r3
        | _ => none
      match r3 with
      | some r3 =>
        let inner := r3.takeWhile (· ≠ '\x7d')
        match r3.dropWhile (· ≠ '\x7d') with
        | '\x7d' :: after => some (inner, after)
        | _ => none
      | none => none
  | _ => none

/-- Generic `\\[a-zA-Z]+\*?` → removed. -/
def genDropM : Matcher := fun l =>
  match l with
  | '\\' :: r =>
    let name := r.takeWhile asciiLetter
    if name = [] then none
    else
      match r.drop name.length with
      | '*' :: after => some ([], after)
      | after => some ([], after)
  | _ => none

/-- `s.replace("{", "").replace("}", "")`. -/
def rmBraces (s : List Char) : List Char :=
  (s.filter (· ≠ '\x7b')).filter (· ≠ '\x7d')

/-- `[\t ]+` → a single space (fires on a leading space or tab and
consumes the whole space/tab run). -/
def tabSpaceM : Matcher := fun l =>
  if l.head?.any (fun c => c = ' ' || c = '\t') then
    some ([' '], l.drop ((l.takeWhile (fun d => d = ' ' || d = '\t')).length))
  else none

/-- ` *\n *` → a single newline. -/
def nlTrimM : Matcher := fun l =>
  match l.dropWhile (· = ' ') with
  | '\n' :: r => some (['\n'], r.dropWhile (· = ' '))
  | _ => none

/-- `MarkdownToWordConverter.convert_latex_to_simple`: the source's
`re.sub` passes in order, then brace removal, whitespace normalization
and strip. -/
def convert_latex_to_simple (s : List Char) : List Char :=
  pyStrip (rewriteAll nlTrimM (rewriteAll tabSpaceM (rmBraces
    (rewriteAll genDropM (rewriteAll genUnwrapM (rewriteAll artifactM
      (rewriteAll ampM (rewriteAll (litRep ('\\' :: '\\' :: []) ('\n' :: []))
        (rewriteAll beginEndM (rewriteAll xrightarrowM (rewriteAll arrowBoth
          (rewriteAll arrowRight (rewriteAll (litRep ('\\' :: "downarrow".data) "↓".data)
            (rewriteAll (litRep ('\\' :: "uparrow".data) "↑".data)
              (rewriteAll (unwrapCmd "text".data)
                (rewriteAll (unwrapCmd "mathrm".data) s))))))))))))))))

/-! ## `MarkdownToWordConverter.parse_content` -/

/-- Index of the first occurrence of `"$$"`. -/
def findDD : List Char → Option Nat
  | '$' :: '$' :: _ => some 0
  | _ :: rest => (findDD rest).map (· + 1)
  | [] => none

/-- `re.split(r"(\$\$[\s\S]*?\$\$)", text)`: the interleaved non-match
and match parts, in order and losslessly.  A lazy match opens at the
first `"$$"` and closes at the next `"$$"` after it; with no closing
`"$$"` anywhere the whole remainder is a single non-match part. -/
def splitBlockGo : Nat → List Char → List (List Char)
  | 0, l => [l]
  | fuel + 1, l =>
    match findDD l with
    | none => [l]
    | some i =>
      let rest := l.drop (i + 2)
      match findDD rest with
      | none => [l]
      | some j =>
        l.take i :: ('$' :: '$' :: rest.take j ++ '$' :: '$' :: []) ::
          splitBlockGo fuel (rest.drop (j + 2))

/-- The `$$`-block split of `parse_content`. -/
def splitBlock (l : List Char) : List (List Char) :=
  splitBlockGo (l.length + 1) l

/-- `re.split(r"(\$[^$]+\$)", part)`: a match is a `$`, at least one
non-`$` character, and a closing `$`; at a `"$$"` the first `$` cannot
start a match and scanning resumes at the second. -/
def splitInlineGo : Nat → List Char → List Char → List (List Char)
  | 0, acc, l => [acc ++ l]
  | _ + 1, acc, [] => [acc]
  | fuel + 1, acc, c :: rest =>
    if c = '$' then
      let body := rest.takeWhile (· ≠ '$')
      match rest.dropWhile (· ≠ '$') with
      | '$' :: after =>
        if body = [] then splitInlineGo fuel (acc ++ ['$']) rest
        else acc :: ('$' :: body ++ ['$']) :: splitInlineGo fuel [] after
      | _ => [acc ++ '$' :: rest]
    else splitInlineGo fuel (acc ++ [c]) rest

/-- The `$`-inline split of `parse_content`. -/
def splitInline (l : List Char) : List (List Char) :=
  splitInlineGo (l.length + 1) [] l

/-- Segment kinds produced by `parse_content`. -/
inductive SegKind where
  | text
  | inlineFormula
  | blockFormula
deriving DecidableEq, Repr

/-- A parsed segment. -/
abbrev Segment := SegKind × List Char

/-- Python `part[2:-2]`. -/
def slice22 (l : List Char) : List Char :=
  (l.take (l.length - 2)).drop 2

/-- Python `part[1:-1]`. -/
def slice11 (l : List Char) : List Char :=
  (l.take (l.length - 1)).drop 1

/-- `part.startswith("$$") and part.endswith("$$")` (the two may
overlap, as in Python: `"$$$"` passes). -/
def dollarDollarWrapped (l : List Char) : Bool :=
  l.take 2 = ('$' :: '$' :: []) && l.reverse.take 2 = ('$' :: '$' :: [])

/-- `inline.startswith("$") and inline.endswith("$")` (a lone `"$"`
passes, as in Python). -/
def dollarWrapped (l : List Char) : Bool :=
  l.take 1 = ('$' :: []) && l.reverse.take 1 = ('$' :: [])

/-- The segments a `$$...$$` part contributes: strip the delimiters and
surrounding whitespace, convert, and emit one block-formula segment per
non-blank line. -/
def blockSegs (part : List Char) : List Segment :=
  ((convert_latex_to_simple (pyStrip (slice22 part))).splitOn '\n').flatMap
    (fun line => if pyStrip line = [] then [] else [(SegKind.blockFormula, pyStrip line)])

/-- The segment(s) one part of the inline split contributes: formulas
are unwrapped and converted, non-empty non-blank text is kept verbatim,
empty and whitespace-only parts are dropped. -/
def inlSeg (inl : List Char) : List Segment :=
  if inl = [] then []
  else if dollarWrapped inl then [(SegKind.inlineFormula, convert_latex_to_simple (slice11 inl))]
  else if pyStrip inl = [] then []
  else [(SegKind.text, inl)]

/-- The segments a non-`$$` part contributes via the inline split. -/
def inlineSegs (part : List Char) : List Segment :=
  (splitInline part).flatMap inlSeg

/-- The segments one part of the block split contributes. -/
def partSegs (part : List Char) : List Segment :=
  if part = [] then []
  else if dollarDollarWrapped part then blockSegs part
  else inlineSegs part

/-- `MarkdownToWordConverter.parse_content`. -/
def parse_content (l : List Char) : List Segment :=
  (splitBlock l).flatMap partSegs

/-- Re-attach the delimiters a segment was parsed from: `$$...$$` for a
block formula, `$...$` for an inline formula, the text itself
otherwise. -/
def wrapSeg : Segment → List Char
  | (SegKind.blockFormula, c) => '$' :: '$' :: (c ++ '$' :: '$' :: [])
  | (SegKind.inlineFormula, c) => '$' :: (c ++ '$' :: [])
  | (SegKind.text, c) => c

/-! ## `MarkdownToWordConverter.create_word_document` (paragraph assembly)

The document is the ordered list of paragraphs `(centered, runs)`; the
assembler state is the paragraph list plus whether the last paragraph is
the "current" (open) one. -/

/-- A paragraph: centered flag and its runs. -/
abbrev Para := Bool × List Run

/-- Assembler state: paragraphs so far, and whether the last one is open. -/
abbrev AsmState := List Para × Bool

/-- Append runs to the last paragraph of the list. -/
def appendLast : List Para → List Run → List Para
  | [], rs => [(false, rs)]
  | [p], rs => [(p.1, p.2 ++ rs)]
  | p :: ps, rs => p :: appendLast ps rs

/-- Append the runs of one line to the current paragraph, opening a new
(left-aligned) paragraph when none is open. -/
def appendLine (st : AsmState) (line : List Char) : AsmState :=
  if st.2 then (appendLast st.1 (make_runs line), true)
  else (st.1 ++ [(false, make_runs line)], true)

/-- Close the current paragraph (`current_paragraph = None`). -/
def closePara (st : AsmState) : AsmState :=
  (st.1, false)

/-- The `text`-segment loop of `create_word_document`: each line is
stripped; a non-blank line is appended to the current paragraph; after a
non-blank line that is not the segment's last line the current paragraph
is closed (`if index < len(lines) - 1 and line`). -/
def textLines (st : AsmState) : List (List Char) → AsmState
  | [] => st
  | [line] =>
    let l := pyStrip line
    if l = [] then st else appendLine st l
  | line :: rest =>
    let l := pyStrip line
    if l = [] then textLines st rest
    else textLines (closePara (appendLine st l)) rest

/-- One segment step of `create_word_document`. -/
def stepSeg (st : AsmState) (seg : Segment) : AsmState :=
  match seg.1 with
  | SegKind.blockFormula => (st.1 ++ [(true, make_runs seg.2)], false)
  | SegKind.inlineFormula => appendLine st seg.2
  | SegKind.text => textLines st (seg.2.splitOn '\n')

/-- The paragraph list `create_word_document` builds from a segment
list. -/
def assembleSegments (segs : List Segment) : List Para :=
  (segs.foldl stepSeg ([], false)).1

/-- The full document assembly from markdown text. -/
def create_word_document (l : List Char) : List Para :=
  assembleSegments (parse_content l)

/-! ## `ChemistryPipeline` orchestration (`pipeline.py`)

The external chat completions are modelled by oracles: the refiner call
of attempt `a` yields `call a`, and a vision extraction with a given
model name yields `extract model`.  The traces record the attempts made
and the backoff sleeps performed. -/

/-- Outcome of one refiner call: a successful response text, an
`SDKError` classified as rate-limit/capacity (status 429), or any other
exception. -/
inductive RefineOutcome where
  | ok (t : String)
  | rateLimited
  | failed
deriving DecidableEq, Repr

/-- What one run of `_refine_text_with_retry` did: the returned text or
the raised error, the number of calls attempted, and the backoff sleeps
performed (in seconds). -/
structure RetryTrace where
  result : Except Unit String
  attempts : Nat
  sleeps : List ℚ
deriving Repr

/-- The `for attempt in range(max_retries)` loop of
`_refine_text_with_retry`: success returns; a rate-limited error sleeps
`base_sleep * 2 ** attempt`, remembers the error and continues; any
other error remembers the error and breaks.  After the loop the
remembered error is re-raised; with none (an empty loop) the raw text is
returned. -/
def refineLoop (call : Nat → RefineOutcome) (base : ℚ) (raw : String) :
    Nat → Nat → Bool → RetryTrace
  | _, 0, hasErr =>
    ⟨if hasErr then Except.error () else Except.ok raw, 0, []⟩
  | a, r + 1, _ =>
    match call a with
    | RefineOutcome.ok t => ⟨Except.ok t, 1, []⟩
    | RefineOutcome.rateLimited =>
      let tr := refineLoop call base raw (a + 1) r true
      ⟨tr.result, tr.attempts + 1, base * 2 ^ a :: tr.sleeps⟩
    | RefineOutcome.failed => ⟨Except.error (), 1, []⟩

/-- `ChemistryPipeline._refine_text_with_retry` (trace view). -/
def refine_text_with_retry (call : Nat → RefineOutcome) (base : ℚ)
    (maxRetries : Nat) (raw : String) : RetryTrace :=
  refineLoop call base raw 0 maxRetries false

/-- The refinement stage of `process_image_bytes_vit`: the retry helper
is called with the draft text (and its defaults `max_retries = 3`,
`base_sleep = 1`); any exception from it is swallowed and the draft text
is used unrefined. -/
def vitRefinedText (call : Nat → RefineOutcome) (base : ℚ) (draft : String) : String :=
  match (refine_text_with_retry call base 3 draft).result with
  | Except.ok t => t
  | Except.error _ => draft

/-- The designated low-tier fallback vision model of
`process_image_bytes_vit`. -/
def fallbackModel : String := "pixtral-12b"

/-- The vision-extraction stage of `process_image_bytes_vit`: call the
selected model; on a `ChemistryOCRError`, if the selected model is not
the fallback model retry once with the fallback (whose own failure
propagates), otherwise re-raise.  Returns the outcome and the list of
models called, in order. -/
def vitExtractStage (extract : String → Except String String) (model : String) :
    Except String String × List String :=
  match extract model with
  | Except.ok t => (Except.ok t, [model])
  | Except.error e =>
    if model ≠ fallbackModel then (extract fallbackModel, [model, fallbackModel])
    else (Except.error e, [model])

/-- The characters that can start or participate in a rewrite pattern of
`convert_latex_to_simple`'s non-whitespace passes: backslash commands,
alignment ampersands, brace groups, and the arrow digraphs built from
`-` and `<`. -/
def trigChars : List Char := ['\\', '&', '\x7b', '\x7d', '-', '<']

/-! ## Theorems -/

/-- C1: when every refiner call fails with a rate-limit error, the
refiner is attempted exactly `max_retries = 3` times, sleeping
`base_sleep * 2 ** attempt` each time — delays `base, 2*base, 4*base` —
after which the retry helper raises; the ViT pipeline swallows that
failure and uses the unrefined draft text, so refinement exhaustion is
never fatal. -/
theorem c1_retry_exhaustion_uses_draft (call : Nat → RefineOutcome) (base : ℚ)
    (draft : String) (h : ∀ i < 3, call i = RefineOutcome.rateLimited) :
    (refine_text_with_retry call base 3 draft).attempts = 3 ∧
    (refine_text_with_retry call base 3 draft).sleeps = [base, 2 * base, 4 * base] ∧
    (refine_text_with_retry call base 3 draft).result = Except.error () ∧
    vitRefinedText call base draft = draft := by
  have h0 := h 0 (by norm_num)
  have h1 := h 1 (by norm_num)
  have h2 := h 2 (by norm_num)
  refine ⟨?_, ?_, ?_, ?_⟩ <;>
    simp [refine_text_with_retry, refineLoop, vitRefinedText, h0, h1, h2] <;>
    constructor <;> ring

/-- Witness for C1 at the constantly rate-limited oracle with
`base = 1`. -/
theorem c1_witness :
    (∀ i < 3, (fun _ : Nat => RefineOutcome.rateLimited) i = RefineOutcome.rateLimited) ∧
    (refine_text_with_retry (fun _ => RefineOutcome.rateLimited) 1 3 "draft").attempts = 3 ∧
    (refine_text_with_retry (fun _ => RefineOutcome.rateLimited) 1 3 "draft").sleeps =
      [1, 2 * 1, 4 * 1] ∧
    (refine_text_with_retry (fun _ => RefineOutcome.rateLimited) 1 3 "draft").result =
      Except.error () ∧
    vitRefinedText (fun _ => RefineOutcome.rateLimited) 1 "draft" = "draft" :=
  ⟨fun _ _ => rfl, c1_retry_exhaustion_uses_draft _ 1 "draft" (fun _ _ => rfl)⟩

/-- C9: when vision extraction fails and the configured model differs
from the fallback `"pixtral-12b"`, extraction is retried exactly once
with the fallback (the call list is `[model, fallback]` and the outcome
is the fallback call's outcome); when the configured model is already
the fallback, the failure propagates after the single call. -/
theorem c9_vision_fallback (extract : String → Except String String) (model e : String)
    (h : extract model = Except.error e) :
    (model ≠ fallbackModel →
      vitExtractStage extract model = (extract fallbackModel, [model, fallbackModel])) ∧
    (model = fallbackModel →
      vitExtractStage extract model = (Except.error e, [model])) := by
  refine ⟨fun hm => ?_, fun hm => ?_⟩
  · simp [vitExtractStage, h, hm]
  · subst hm
    simp [vitExtractStage, h]

/-- Witness for C9 at a concrete failing extractor. -/
theorem c9_witness :
    (fun m => if m = "mistral-large" then (Except.error "boom" : Except String String)
      else Except.ok "text") "mistral-large" = Except.error "boom" ∧
    vitExtractStage
      (fun m => if m = "mistral-large" then (Except.error "boom" : Except String String)
        else Except.ok "text") "mistral-large" =
      ((fun m => if m = "mistral-large" then (Except.error "boom" : Except String String)
        else Except.ok "text") fallbackModel, ["mistral-large", fallbackModel]) :=
  ⟨rfl, (c9_vision_fallback _ "mistral-large" "boom" rfl).1 (by decide)⟩

/-- Runs in a flushed buffer are unstyled. -/
theorem flushBuf_flags {buf : List Char} {r : Run} (hr : r ∈ flushBuf buf) :
    r.2.1 = false ∨ r.2.2 = false := by
  unfold flushBuf at hr
  split at hr <;> simp_all

/-- No run of the explicit-markup scan has both style flags set. -/
theorem lltrGo_flags : ∀ fuel buf s, ∀ r ∈ lltrGo fuel buf s,
    r.2.1 = false ∨ r.2.2 = false := by
  intro fuel buf s
  induction fuel, buf, s using lltrGo.induct with
  | case1 buf s => intro r hr; exact flushBuf_flags hr
  | case2 _ buf => intro r hr; exact flushBuf_flags hr
  | case3 fuel buf c hc rest hcl ih =>
    intro r hr
    rw [lltrGo] at hr
    simp only [hc, if_pos, hcl, if_true, List.mem_append, List.mem_cons] at hr
    rcases hr with h | h | h
    · exact flushBuf_flags h
    · subst h; by_cases h : c = '_' <;> simp [h]
    · exact ih r h
  | case4 fuel buf c hc rest hcl ih =>
    intro r hr
    rw [lltrGo] at hr
    simp only [hc, if_true, hcl, if_false] at hr
    exact ih r hr
  | case5 fuel buf c hc d rest hd ih =>
    intro r hr
    rw [lltrGo.eq_def] at hr
    simp only [hc, if_true] at hr
    simp only [List.mem_append, List.mem_cons] at hr
    rcases hr with h | h | h
    · exact flushBuf_flags h
    · subst h; by_cases h : c = '_' <;> simp [h]
    · exact ih r h
  | case6 fuel buf c hc =>
    intro r hr
    rw [lltrGo] at hr
    simp only [hc, if_true] at hr
    exact flushBuf_flags hr
  | case7 fuel buf c cs hc ih =>
    intro r hr
    rw [lltrGo.eq_def] at hr
    simp only at hr
    rw [if_neg hc] at hr
    exact ih r hr

/-- No run of the bare-digit inference has both style flags set. -/
theorem sfsGo_flags : ∀ s buf inD prev, ∀ r ∈ sfsGo buf inD prev s,
    r.2.1 = false ∨ r.2.2 = false := by
  intro s
  induction s with
  | nil =>
    intro buf inD prev r hr
    rw [sfsGo] at hr
    split at hr
    · simp_all
    · exact flushBuf_flags hr
  | cons c cs ih =>
    intro buf inD prev r hr
    rw [sfsGo] at hr
    split at hr
    · split at hr
      · exact ih _ _ _ r hr
      · rcases List.mem_cons.1 hr with h | h
        · simp [h]
        · exact ih _ _ _ r h
    · split at hr
      · rcases List.mem_append.1 hr with h | h
        · exact flushBuf_flags h
        · exact ih _ _ _ r h
      · exact ih _ _ _ r hr

/-- Runs added by `_add_run` for a styled segment never carry both
flags. -/
theorem styledAdd_flags {content : List Char} {isSup : Bool} {r : Run}
    (hr : r ∈ styledAdd content isSup) : r.2.1 = false ∨ r.2.2 = false := by
  unfold styledAdd at hr
  split at hr
  · simp_all
  · rcases List.mem_singleton.1 hr with rfl
    cases isSup <;> simp

/-- No run emitted by the baseline writer's line parser has both style
flags set. -/
theorem plGo_flags : ∀ fuel normal s rs, plGo fuel normal s = some rs →
    ∀ r ∈ rs, r.2.1 = false ∨ r.2.2 = false := by
  intro fuel normal s
  induction fuel, normal, s using plGo.induct with
  | case1 _ _ => intro rs h; exact absurd h (by simp [plGo])
  | case2 _ normal =>
    intro rs h r hr
    rw [plGo] at h
    obtain rfl : flushBuf normal = rs := by simpa using h
    exact flushBuf_flags hr
  | case3 fuel normal c hc =>
    intro rs h
    rw [plGo] at h
    simp [hc] at h
  | case4 fuel normal c hc rest hfmb ih =>
    intro rs h r hr
    rw [plGo] at h
    simp only [hc, if_true, hfmb] at h
    exact ih rs h r hr
  | case5 fuel normal c hc rest j hfmb ih =>
    intro rs h r hr
    rw [plGo] at h
    simp only [hc, if_true, hfmb, Option.map_eq_some'] at h
    obtain ⟨rs2, h2, rfl⟩ := h
    rcases List.mem_append.1 hr with h3 | h3
    · rcases List.mem_append.1 h3 with h4 | h4
      · exact flushBuf_flags h4
      · exact styledAdd_flags h4
    · exact ih rs2 h2 r h3
  | case6 fuel normal c hc d rest hd content rest2 hm ih =>
    intro rs h r hr
    rw [plGo.eq_def] at h
    simp only [hc, if_true] at h
    rw [if_neg hd] at h
    simp only [hm, Option.map_eq_some'] at h
    obtain ⟨rs2, h2, rfl⟩ := h
    rcases List.mem_append.1 hr with h3 | h3
    · rcases List.mem_append.1 h3 with h4 | h4
      · exact flushBuf_flags h4
      · exact styledAdd_flags h4
    · exact ih rs2 h2 r h3
  | case7 fuel normal c hc d rest hd hm ih =>
    intro rs h r hr
    rw [plGo.eq_def] at h
    simp only [hc, if_true] at h
    rw [if_neg hd] at h
    simp only [hm, Option.map_eq_some'] at h
    obtain ⟨rs2, h2, rfl⟩ := h
    rcases List.mem_append.1 hr with h3 | h3
    · rcases List.mem_append.1 h3 with h4 | h4
      · exact flushBuf_flags h4
      · exact styledAdd_flags h4
    · exact ih rs2 h2 r h3
  | case8 fuel normal c cs hc ih =>
    intro rs h r hr
    rw [plGo.eq_def] at h
    simp only at h
    rw [if_neg hc] at h
    exact ih rs h r hr

/-- No run of the combined tokenizer has both style flags set. -/
theorem make_runs_flags (s : List Char) : ∀ r ∈ make_runs s,
    r.2.1 = false ∨ r.2.2 = false := by
  intro r hr
  unfold make_runs at hr
  rcases List.mem_flatten.1 hr with ⟨l, hl, hrl⟩
  rcases List.mem_map.1 hl with ⟨r2, hr2, rfl⟩
  unfold makeRunsStep at hrl
  split at hrl
  · rcases List.mem_singleton.1 hrl with rfl
    exact lltrGo_flags _ _ _ _ hr2
  · exact sfsGo_flags _ _ _ _ r hrl

/-- C2: no run produced by any of the tokenizers — the explicit-markup
scan, the bare-digit subscript inference, their combination, or the
baseline DOCX writer's line parser — has the subscript and superscript
flags both set to `true`. -/
theorem c2_sub_sup_exclusive :
    (∀ s : List Char, ∀ r ∈ latex_like_to_runs s, ¬(r.2.1 = true ∧ r.2.2 = true)) ∧
    (∀ s : List Char, ∀ r ∈ split_for_subscripts s, ¬(r.2.1 = true ∧ r.2.2 = true)) ∧
    (∀ s : List Char, ∀ r ∈ make_runs s, ¬(r.2.1 = true ∧ r.2.2 = true)) ∧
    (∀ (s : List Char) (rs : List Run), add_parsed_line s = some rs →
      ∀ r ∈ rs, ¬(r.2.1 = true ∧ r.2.2 = true)) := by
  refine ⟨fun s r hr => ?_, fun s r hr => ?_, fun s r hr => ?_, fun s rs h r hr => ?_⟩
  · rcases lltrGo_flags _ _ _ r hr with h | h <;> simp [h]
  · rcases sfsGo_flags _ _ _ _ r hr with h | h <;> simp [h]
  · rcases make_runs_flags s r hr with h | h <;> simp [h]
  · rcases plGo_flags _ _ _ rs h r hr with h2 | h2 <;> simp [h2]

/-- Witness for C2 on the subscript run that `"H2O"` produces. -/
theorem c2_witness :
    ((('2' :: []), true, false) : Run) ∈ split_for_subscripts "H2O".data ∧
    ¬(((('2' :: []), true, false) : Run).2.1 = true ∧
      ((('2' :: []), true, false) : Run).2.2 = true) :=
  ⟨by decide, c2_sub_sup_exclusive.2.1 "H2O".data _ (by decide)⟩

/-- C5: on `"N^{2+}"` the combined tokenizer produces exactly the runs
`[("N", false, false), ("2+", false, true)]`, and the bare-digit
inference step passes every styled run through unchanged (explicit
markup wins over inference). -/
theorem c5_explicit_markup_precedence :
    make_runs ('N' :: '^' :: '\x7b' :: '2' :: '+' :: '\x7d' :: []) =
      [(('N' :: []), false, false), (('2' :: '+' :: []), false, true)] ∧
    ∀ r : Run, (r.2.1 = true ∨ r.2.2 = true) → makeRunsStep r = [r] := by
  refine ⟨by decide, ?_⟩
  rintro ⟨t, b, p⟩ h
  rcases h with h | h <;> simp only at h <;> subst h <;> simp [makeRunsStep]

/-- Witness for C5's pass-through clause on the styled run
`("2+", false, true)`. -/
theorem c5_witness :
    (((('2' :: '+' :: []), false, true) : Run).2.1 = true ∨
      ((('2' :: '+' :: []), false, true) : Run).2.2 = true) ∧
    makeRunsStep (('2' :: '+' :: []), false, true) = [(('2' :: '+' :: []), false, true)] :=
  ⟨Or.inr rfl, c5_explicit_markup_precedence.2 _ (Or.inr rfl)⟩


/-- C3 fails on the code: a text segment `"a\nb"` has no blank line, yet
the assembler closes the paragraph after the non-blank line `"a"` (the
source closes after every non-final non-blank line), so `"b"` lands in a
second paragraph where the claim requires a single one. -/
theorem c3_counterexample :
    assembleSegments [(SegKind.text, ('a' :: '\n' :: 'b' :: []))] =
      [(false, [(('a' :: []), false, false)]), (false, [(('b' :: []), false, false)])] ∧
    (assembleSegments [(SegKind.text, ('a' :: '\n' :: 'b' :: []))]).length ≠ 1 := by
  decide

/-- C3 amended: a text segment is split on newlines; each non-blank line
is appended to the currently open paragraph (opening one if none); after
a non-blank line that is not the segment's last line the paragraph is
closed; blank lines leave the assembler state unchanged (in particular a
blank line does not close the paragraph). -/
theorem c3_amended_text_segment (st : AsmState) (line c : List Char)
    (rest : List (List Char)) :
    stepSeg st (SegKind.text, c) = textLines st (c.splitOn '\n') ∧
    (pyStrip line = [] → textLines st (line :: rest) = textLines st rest) ∧
    (pyStrip line ≠ [] → rest ≠ [] →
      textLines st (line :: rest) = textLines (closePara (appendLine st (pyStrip line))) rest) ∧
    (pyStrip line ≠ [] → textLines st [line] = appendLine st (pyStrip line)) := by
  refine ⟨rfl, fun hb => ?_, fun hb hr => ?_, fun hb => ?_⟩
  · cases rest with
    | nil => simp [textLines, hb]
    | cons r rs => simp [textLines, hb]
  · cases rest with
    | nil => exact absurd rfl hr
    | cons r rs => simp [textLines, hb]
  · simp [textLines, hb]

/-- Witness for C3's amended claim: a non-final non-blank line closes
the paragraph. -/
theorem c3_witness :
    pyStrip ('a' :: []) ≠ [] ∧ (('b' :: []) :: ([] : List (List Char))) ≠ [] ∧
    textLines (([], false) : AsmState) (('a' :: []) :: ('b' :: []) :: []) =
      textLines (closePara (appendLine ([], false) (pyStrip ('a' :: [])))) (('b' :: []) :: []) :=
  ⟨by decide, by decide,
    (c3_amended_text_segment ([], false) ('a' :: []) [] (('b' :: []) :: [])).2.2.1
      (by decide) (by decide)⟩


/-- A marker-free string is scanned as one literal buffer by the
markdown converter's tokenizer (for any fuel). -/
theorem lltrGo_literal : ∀ (s : List Char) (fuel : Nat) (buf : List Char),
    (∀ c ∈ s, c ≠ '_' ∧ c ≠ '^') → lltrGo fuel buf s = flushBuf (buf ++ s) := by
  intro s
  induction s with
  | nil => intro fuel buf _; cases fuel <;> simp [lltrGo]
  | cons c cs ih =>
    intro fuel buf h
    obtain ⟨h1, h2⟩ := h c (List.mem_cons_self c cs)
    cases fuel with
    | zero => rfl
    | succ f =>
      rw [lltrGo.eq_def]
      simp only
      rw [if_neg (by simp [h1, h2])]
      rw [ih f (buf ++ [c]) (fun d hd => h d (List.mem_cons_of_mem c hd))]
      simp

/-- A marker-free string is scanned as one literal buffer by the
baseline writer's line parser (given enough fuel). -/
theorem plGo_literal : ∀ (s : List Char) (fuel : Nat) (normal : List Char),
    s.length < fuel → (∀ c ∈ s, c ≠ '^' ∧ c ≠ '_') →
    plGo fuel normal s = some (flushBuf (normal ++ s)) := by
  intro s
  induction s with
  | nil =>
    intro fuel normal hf _
    cases fuel with
    | zero => exact absurd hf (by simp)
    | succ f => simp [plGo]
  | cons c cs ih =>
    intro fuel normal hf h
    obtain ⟨h1, h2⟩ := h c (List.mem_cons_self c cs)
    cases fuel with
    | zero => exact absurd hf (by simp)
    | succ f =>
      rw [plGo.eq_def]
      simp only
      rw [if_neg (by simp [h1, h2])]
      rw [ih f (normal ++ [c]) (by simpa using hf) (fun d hd => h d (List.mem_cons_of_mem c hd))]
      simp

/-- `takeWhile`/`dropWhile` at the first closing brace. -/
theorem takeDrop_at_close : ∀ (inner t : List Char), '\x7d' ∉ inner →
    (inner ++ '\x7d' :: t).takeWhile (· ≠ '\x7d') = inner ∧
    (inner ++ '\x7d' :: t).dropWhile (· ≠ '\x7d') = '\x7d' :: t := by
  intro inner
  induction inner with
  | nil => intro t _; simp [List.takeWhile, List.dropWhile]
  | cons c cs ih =>
    intro t h
    have hc : c ≠ '\x7d' := fun hc => h (by simp [hc])
    obtain ⟨ih1, ih2⟩ := ih t (fun hm => h (List.mem_cons_of_mem c hm))
    refine ⟨?_, ?_⟩
    · rw [List.cons_append, List.takeWhile_cons_of_pos (by simp [hc]), ih1]
    · rw [List.cons_append, List.dropWhile_cons_of_pos (by simp [hc]), ih2]

/-- A list that ends in a closing brace contains one. -/
theorem contains_close (inner t : List Char) :
    (inner ++ '\x7d' :: t).contains '\x7d' = true := by
  simp [List.contains]

/-- Without any closing brace the depth counter never returns. -/
theorem fmbGo_none : ∀ (s : List Char) (d : Int) (i : Nat), '\x7d' ∉ s →
    fmbGo d i s = none := by
  intro s
  induction s with
  | nil => intro d i _; rfl
  | cons c cs ih =>
    intro d i h
    have hc : c ≠ '\x7d' := fun hc => h (by simp [hc])
    have hmem : '\x7d' ∉ cs := fun hm => h (List.mem_cons_of_mem c hm)
    rw [fmbGo]
    by_cases hb : c = '\x7b' <;> simp [hb, hc, ih _ _ hmem]

/-- Walking the depth counter across a brace-close-free block adds the
number of opening braces to the depth and the block length to the
index. -/
theorem fmbGo_traverse : ∀ (s t : List Char) (d : Int) (i : Nat), '\x7d' ∉ s →
    fmbGo d i (s ++ t) =
      fmbGo (d + (s.countP (fun c => c = '\x7b') : Int)) (i + s.length) t := by
  intro s
  induction s with
  | nil => intro t d i _; simp
  | cons c cs ih =>
    intro t d i h
    have hc : c ≠ '\x7d' := fun hc => h (by simp [hc])
    have hmem : '\x7d' ∉ cs := fun hm => h (List.mem_cons_of_mem c hm)
    by_cases hb : c = '\x7b'
    · rw [List.cons_append, fmbGo, if_pos hb, ih t _ _ hmem]
      rw [List.countP_cons_of_pos _ _ (by simp [hb])]
      congr 1
      · push_cast
        ring
      · simp [List.length_cons]
        omega
    · rw [List.cons_append, fmbGo, if_neg hb, if_neg (by simp [hc]), ih t _ _ hmem]
      rw [List.countP_cons_of_neg _ _ (by simp [hb])]
      congr 1
      simp [List.length_cons]
      omega

/-- What `_find_matching_brace` returns on `"{" ++ inner ++ "}"` for a
close-free `inner`: the index of the final brace when `inner` opens no
brace of its own, and `-1` (no match) when it does. -/
theorem fmb_brace_result (inner : List Char) (h : '\x7d' ∉ inner) :
    find_matching_brace ('\x7b' :: (inner ++ '\x7d' :: [])) =
      if '\x7b' ∈ inner then none else some (inner.length + 1) := by
  unfold find_matching_brace
  rw [fmbGo, if_pos rfl, fmbGo_traverse inner _ _ _ h]
  by_cases hb : '\x7b' ∈ inner
  · have hk : 0 < inner.countP (fun c => c = '\x7b') :=
      List.countP_pos_iff.2 ⟨'\x7b', hb, by simp⟩
    have hne : (1 : Int) + (inner.countP (fun c => c = '\x7b') : Int) - 1 ≠ 0 := by
      push_cast
      omega
    simp [hb, fmbGo, hne]
  · have hk : inner.countP (fun c => c = '\x7b') = 0 := by
      rw [List.countP_eq_zero]
      intro a ha
      simp only [decide_eq_true_eq]
      rintro rfl
      exact hb ha
    simp [hb, fmbGo, hk, Nat.add_comm]


/-- C4 fails on the code: on `"_{a{b}c}"` the markdown converter's scan
takes the styled content up to the *first* `}` (yielding `"a{b"` and a
literal tail `"c}"`), not up to the depth-matching `}`; only the
baseline writer's parser depth-matches (yielding `"a{b}c"`). -/
theorem c4_counterexample :
    latex_like_to_runs
        ('_' :: '\x7b' :: 'a' :: '\x7b' :: 'b' :: '\x7d' :: 'c' :: '\x7d' :: []) =
      [(('a' :: '\x7b' :: 'b' :: []), true, false), (('c' :: '\x7d' :: []), false, false)] ∧
    add_parsed_line
        ('_' :: '\x7b' :: 'a' :: '\x7b' :: 'b' :: '\x7d' :: 'c' :: '\x7d' :: []) =
      some [(('a' :: '\x7b' :: 'b' :: '\x7d' :: 'c' :: []), true, false)] := by
  decide

/-- Scanning an empty remainder yields no runs. -/
theorem lltrGo_nil (fuel : Nat) : lltrGo fuel [] [] = [] := by
  cases fuel <;> simp [lltrGo, flushBuf]

/-- Unfolding step of the markdown scan at a marker followed by `{`. -/
theorem lltrGo_brace (fuel : Nat) (buf : List Char) (c : Char) (rest : List Char)
    (hc : (c = '_' || c = '^') = true) :
    lltrGo (fuel + 1) buf (c :: '\x7b' :: rest) =
      if rest.contains '\x7d' then
        flushBuf buf ++
          (rest.takeWhile (· ≠ '\x7d'), c == '_', !(c == '_')) ::
            lltrGo fuel [] ((rest.dropWhile (· ≠ '\x7d')).drop 1)
      else lltrGo fuel (buf ++ [c]) ('\x7b' :: rest) := by
  conv_lhs => rw [lltrGo.eq_def]
  simp [hc]

/-- Unfolding step of the writer's scan at a marker followed by `{` when
the depth counter finds no matching brace. -/
theorem plGo_brace_none (fuel : Nat) (normal : List Char) (c : Char) (rest : List Char)
    (hc : (c = '^' || c = '_') = true)
    (hfmb : find_matching_brace ('\x7b' :: rest) = none) :
    plGo (fuel + 1) normal (c :: '\x7b' :: rest) = plGo fuel (normal ++ [c]) ('\x7b' :: rest) := by
  conv_lhs => rw [plGo.eq_def]
  simp [hc, hfmb]

/-- Unfolding step of the writer's scan at a marker followed by `{` when
the depth counter matches at index `j`. -/
theorem plGo_brace_some (fuel : Nat) (normal : List Char) (c : Char) (rest : List Char)
    (j : Nat) (hc : (c = '^' || c = '_') = true)
    (hfmb : find_matching_brace ('\x7b' :: rest) = some j) :
    plGo (fuel + 1) normal (c :: '\x7b' :: rest) =
      (plGo fuel [] (rest.drop j)).map (fun rs =>
        flushBuf normal ++ styledAdd (rest.take (j - 1)) (c == '^') ++ rs) := by
  conv_lhs => rw [plGo.eq_def]
  simp [hc, hfmb]

/-- Unfolding step of the writer's scan on the empty remainder. -/
theorem plGo_nil (fuel : Nat) (normal : List Char) :
    plGo (fuel + 1) normal [] = some (flushBuf normal) := by
  rw [plGo]

/-- Shaped-fuel form of the markdown scan on `"_{" ++ inner ++ "}" ++ after`:
the styled content always runs to the first closing brace. -/
theorem lltr_brace_first (fuel : Nat) (buf inner after : List Char)
    (h : '\x7d' ∉ inner) :
    lltrGo (fuel + 1) buf ('_' :: '\x7b' :: (inner ++ '\x7d' :: after)) =
      flushBuf buf ++ (inner, true, false) :: lltrGo fuel [] after := by
  rw [lltrGo_brace fuel buf '_' (inner ++ '\x7d' :: after) (by decide)]
  rw [contains_close inner after, if_pos rfl]
  rw [(takeDrop_at_close inner after h).1, (takeDrop_at_close inner after h).2]
  simp

/-- Shaped-fuel form of the writer's scan on `"_{" ++ inner ++ "}"` when
`inner` opens no brace: the depth counter matches the final brace. -/
theorem pl_brace_matched (fuel : Nat) (normal inner : List Char)
    (h : '\x7d' ∉ inner) (hnb : '\x7b' ∉ inner) :
    plGo (fuel + 1 + 1) normal ('_' :: '\x7b' :: (inner ++ '\x7d' :: [])) =
      some (flushBuf normal ++ styledAdd inner false) := by
  rw [plGo_brace_some (fuel + 1) normal '_' (inner ++ '\x7d' :: []) (inner.length + 1)
    (by decide) ((fmb_brace_result inner h).trans (if_neg hnb))]
  rw [show (inner ++ '\x7d' :: []).drop (inner.length + 1) = [] from
    List.drop_eq_nil_of_le (by simp)]
  rw [plGo_nil]
  rw [show inner.length + 1 - 1 = inner.length by omega]
  rw [show (inner ++ '\x7d' :: []).take inner.length = inner by
    simpa using List.take_left inner ('\x7d' :: [])]
  simp [flushBuf]

/-- Shaped-fuel form of the writer's scan on `"_{" ++ inner ++ "}"` when
`inner` opens a brace of its own: the depth counter finds no match and
the whole line stays literal. -/
theorem pl_brace_unmatched (fuel : Nat) (normal inner : List Char)
    (h : '\x7d' ∉ inner) (h1 : '^' ∉ inner) (h2 : '_' ∉ inner)
    (hb : '\x7b' ∈ inner) (hf : inner.length + 2 < fuel) :
    plGo (fuel + 1) normal ('_' :: '\x7b' :: (inner ++ '\x7d' :: [])) =
      some (flushBuf (normal ++ '_' :: '\x7b' :: (inner ++ '\x7d' :: []))) := by
  rw [plGo_brace_none fuel normal '_' (inner ++ '\x7d' :: [])
    (by decide) ((fmb_brace_result inner h).trans (if_pos hb))]
  rw [plGo_literal ('\x7b' :: (inner ++ '\x7d' :: [])) fuel (normal ++ ['_'])
    (by simpa using hf) ?_]
  · simp
  · intro c hc
    rcases List.mem_cons.1 hc with rfl | hc
    · exact ⟨by decide, by decide⟩
    rcases List.mem_append.1 hc with hc | hc
    · exact ⟨fun hx => h1 (hx ▸ hc), fun hx => h2 (hx ▸ hc)⟩
    · rcases List.mem_singleton.1 hc with rfl
      exact ⟨by decide, by decide⟩

/-- Shaped-fuel form of both scans on `"_{" ++ rest` with no closing
brace anywhere: the marker stays literal and nothing is consumed. -/
theorem scans_no_close (fuel : Nat) (buf rest : List Char)
    (h : '\x7d' ∉ rest) (h1 : '^' ∉ rest) (h2 : '_' ∉ rest)
    (hf : rest.length + 1 < fuel) :
    lltrGo (fuel + 1) buf ('_' :: '\x7b' :: rest) =
      flushBuf (buf ++ '_' :: '\x7b' :: rest) ∧
    plGo (fuel + 1) buf ('_' :: '\x7b' :: rest) =
      some (flushBuf (buf ++ '_' :: '\x7b' :: rest)) := by
  have hmem : ∀ c ∈ '\x7b' :: rest, c ≠ '_' ∧ c ≠ '^' := by
    intro c hc
    rcases List.mem_cons.1 hc with rfl | hc
    · exact ⟨by decide, by decide⟩
    · exact ⟨fun hx => h2 (hx ▸ hc), fun hx => h1 (hx ▸ hc)⟩
  constructor
  · rw [lltrGo_brace fuel buf '_' rest (by decide)]
    rw [if_neg (by simpa using h)]
    rw [lltrGo_literal ('\x7b' :: rest) fuel (buf ++ ['_']) hmem]
    simp
  · have hfmb : find_matching_brace ('\x7b' :: rest) = none := by
      apply fmbGo_none
      intro hm
      rcases List.mem_cons.1 hm with hx | hx
      · exact absurd hx (by decide)
      · exact h hx
    rw [plGo_brace_none fuel buf '_' rest (by decide) hfmb]
    rw [plGo_literal ('\x7b' :: rest) fuel (buf ++ ['_']) (by simpa using hf)
      (fun c hc => (hmem c hc).symm.imp id id)]
    simp

/-- C4 amended: only the baseline DOCX writer's scan finds the styled
content by a brace-depth counter (so an unmatched inner nesting makes
the marker literal), while the markdown converter's scan always takes
everything up to the first `}`; in both scans, a marker whose brace
group never closes is kept as a literal character with no content
consumed. -/
theorem c4_amended_brace_matching :
    (∀ inner : List Char, '\x7d' ∉ inner →
      latex_like_to_runs ('_' :: '\x7b' :: (inner ++ '\x7d' :: [])) = [(inner, true, false)]) ∧
    (∀ inner : List Char, '\x7d' ∉ inner → '^' ∉ inner → '_' ∉ inner →
      (('\x7b' ∉ inner →
        add_parsed_line ('_' :: '\x7b' :: (inner ++ '\x7d' :: [])) =
          some (styledAdd inner false)) ∧
       ('\x7b' ∈ inner →
        add_parsed_line ('_' :: '\x7b' :: (inner ++ '\x7d' :: [])) =
          some [(('_' :: '\x7b' :: (inner ++ '\x7d' :: [])), false, false)]))) ∧
    (∀ rest : List Char, '\x7d' ∉ rest → '^' ∉ rest → '_' ∉ rest →
      latex_like_to_runs ('_' :: '\x7b' :: rest) = [(('_' :: '\x7b' :: rest), false, false)] ∧
      add_parsed_line ('_' :: '\x7b' :: rest) = some [(('_' :: '\x7b' :: rest), false, false)]) := by
  refine ⟨fun inner h => ?_, fun inner h h1 h2 => ⟨fun hnb => ?_, fun hb => ?_⟩,
    fun rest h h1 h2 => ?_⟩
  · unfold latex_like_to_runs
    rw [lltr_brace_first _ _ _ _ h, lltrGo_nil]
    simp [flushBuf]
  · unfold add_parsed_line
    rw [show ('_' :: '\x7b' :: (inner ++ '\x7d' :: [])).length + 1 =
      inner.length + 2 + 1 + 1 by simp]
    rw [pl_brace_matched _ _ _ h hnb]
    simp [flushBuf]
  · unfold add_parsed_line
    rw [show ('_' :: '\x7b' :: (inner ++ '\x7d' :: [])).length + 1 =
      inner.length + 3 + 1 by simp]
    rw [pl_brace_unmatched _ _ _ h h1 h2 hb (by omega)]
    simp [flushBuf]
  · have hs := scans_no_close (rest.length + 2) [] rest h h1 h2 (by omega)
    constructor
    · unfold latex_like_to_runs
      rw [show ('_' :: '\x7b' :: rest).length + 1 = rest.length + 2 + 1 by simp]
      rw [hs.1]
      simp [flushBuf]
    · unfold add_parsed_line
      rw [show ('_' :: '\x7b' :: rest).length + 1 = rest.length + 2 + 1 by simp]
      rw [hs.2]
      simp [flushBuf]


/-- Witness for C4's amended claim: first-brace content on a nested
group in the markdown scan. -/
theorem c4_witness :
    ('\x7d' ∉ ('a' :: '\x7b' :: 'b' :: [])) ∧
    latex_like_to_runs ('_' :: '\x7b' :: (('a' :: '\x7b' :: 'b' :: []) ++ '\x7d' :: [])) =
      [(('a' :: '\x7b' :: 'b' :: []), true, false)] :=
  ⟨by decide, c4_amended_brace_matching.1 ('a' :: '\x7b' :: 'b' :: []) (by decide)⟩


/-- Unfolding steps of the flank-rule pass. -/
theorem ruleGo_cons (L R : Char → Bool) (prev : Option Char) (pend : List Char)
    (c : Char) (cs : List Char) :
    ruleGo L R prev pend (c :: cs) =
      if pyWs c then ruleGo L R prev (pend ++ [c]) cs
      else if pend ≠ [] && optL L prev && R c then
        c :: ruleGo L R (some c) [] cs
      else
        pend ++ c :: ruleGo L R (some c) [] cs := rfl

/-- The flank-rule pass flushes the pending run at the end of input. -/
theorem ruleGo_nil (L R : Char → Bool) (prev : Option Char) (pend : List Char) :
    ruleGo L R prev pend [] = pend := rfl

/-- The flank-rule pass only deletes whitespace: the non-whitespace
subsequence is untouched (for a whitespace-only pending buffer). -/
theorem ruleGo_filter (L R : Char → Bool) : ∀ (s pend : List Char) (prev : Option Char),
    (∀ c ∈ pend, pyWs c = true) →
    (ruleGo L R prev pend s).filter (fun c => !pyWs c) = s.filter (fun c => !pyWs c) := by
  intro s
  induction s with
  | nil =>
    intro pend prev hp
    rw [ruleGo_nil]
    rw [List.filter_eq_nil_iff.2 (fun c hc => by simp [hp c hc])]
    simp
  | cons c cs ih =>
    intro pend prev hp
    rw [ruleGo_cons]
    by_cases hw : pyWs c
    · rw [if_pos hw]
      rw [ih (pend ++ [c]) prev (by
        intro d hd
        rcases List.mem_append.1 hd with hd | hd
        · exact hp d hd
        · rcases List.mem_singleton.1 hd with rfl
          exact hw)]
      rw [List.filter_cons_of_neg (by simp [hw])]
    · rw [if_neg hw]
      split
      · rw [List.filter_cons_of_pos (by simp [hw]), List.filter_cons_of_pos (by simp [hw])]
        rw [ih [] (some c) (by simp)]
      · rw [List.filter_append, List.filter_eq_nil_iff.2 (fun d hd => by simp [hp d hd])]
        rw [List.filter_cons_of_pos (by simp [hw]), List.filter_cons_of_pos (by simp [hw])]
        rw [List.nil_append, ih [] (some c) (by simp)]

/-- Whitespace collapsing only rewrites whitespace. -/
theorem collapseGo_filter : ∀ (s : List Char) (b : Bool),
    (collapseGo b s).filter (fun c => !pyWs c) = s.filter (fun c => !pyWs c) := by
  intro s
  induction s with
  | nil => intro b; rfl
  | cons c cs ih =>
    intro b
    rw [collapseGo]
    by_cases hw : pyWs c
    · rw [if_pos hw]
      rw [List.filter_cons_of_neg (by simp [hw])]
      cases b
      · show List.filter _ ([' '] ++ collapseGo true cs) = _
        rw [List.filter_append]
        rw [show List.filter (fun c => !pyWs c) [' '] = [] from by simp [pyWs]]
        rw [List.nil_append, ih true]
      · show List.filter _ ([] ++ collapseGo true cs) = _
        rw [List.nil_append, ih true]
    · rw [if_neg hw]
      rw [List.filter_cons_of_pos (by simp [hw]), List.filter_cons_of_pos (by simp [hw])]
      rw [ih false]

/-- Unfolding step of the right trim. -/
theorem rtrim_cons (c : Char) (cs : List Char) :
    rtrim (c :: cs) = if rtrim cs = [] && pyWs c then [] else c :: rtrim cs := rfl

/-- Right trim only deletes whitespace. -/
theorem rtrim_filter : ∀ s : List Char,
    (rtrim s).filter (fun c => !pyWs c) = s.filter (fun c => !pyWs c) := by
  intro s
  induction s with
  | nil => rfl
  | cons c cs ih =>
    rw [rtrim_cons]
    split
    · rename_i hcond
      rw [Bool.and_eq_true, decide_eq_true_eq] at hcond
      rw [List.filter_cons_of_neg (by simp [hcond.2])]
      rw [← ih, hcond.1]
    · simp only [List.filter_cons, ih]

/-- Left trim only deletes whitespace. -/
theorem ltrim_filter : ∀ s : List Char,
    (ltrim s).filter (fun c => !pyWs c) = s.filter (fun c => !pyWs c) := by
  intro s
  induction s with
  | nil => rfl
  | cons c cs ih =>
    by_cases hw : pyWs c
    · rw [show ltrim (c :: cs) = ltrim cs from by simp [ltrim, List.dropWhile_cons, hw]]
      rw [ih]
      rw [List.filter_cons_of_neg (by simp [hw])]
    · rw [show ltrim (c :: cs) = c :: cs from by simp [ltrim, List.dropWhile_cons, hw]]

/-- C10: the chemical spacing normalizer only deletes whitespace or
rewrites whitespace runs: the non-whitespace subsequence of
`normalize_chem_spacing s` is exactly that of `s`. -/
theorem c10_normalize_preserves_nonws (s : List Char) :
    (normalize_chem_spacing s).filter (fun c => !pyWs c) = s.filter (fun c => !pyWs c) := by
  unfold normalize_chem_spacing pyStrip collapseWs rulePass
  rw [rtrim_filter, ltrim_filter, collapseGo_filter,
    ruleGo_filter _ _ _ _ _ (by simp), ruleGo_filter _ _ _ _ _ (by simp),
    ruleGo_filter _ _ _ _ _ (by simp), ruleGo_filter _ _ _ _ _ (by simp)]


/-- Unfolding step of the flank checker. -/
theorem ntGo_cons (L R : Char → Bool) (prev : Option Char) (inWs : Bool)
    (c : Char) (cs : List Char) :
    ntGo L R prev inWs (c :: cs) =
      if pyWs c then ntGo L R prev true cs
      else (!(inWs && optL L prev && R c)) && ntGo L R (some c) false cs := rfl

/-- The flank checker accepts the empty string. -/
theorem ntGo_nil (L R : Char → Bool) (prev : Option Char) (inWs : Bool) :
    ntGo L R prev inWs [] = true := rfl

/-- Unfolding step of the whitespace-shape checker. -/
theorem wsShape_cons (b : Bool) (c : Char) (cs : List Char) :
    wsShape b (c :: cs) =
      if pyWs c then ((!b) && (c = ' ')) && wsShape true cs
      else wsShape false cs := rfl

/-- Unfolding step of whitespace collapsing. -/
theorem collapseGo_cons (b : Bool) (c : Char) (cs : List Char) :
    collapseGo b (c :: cs) =
      if pyWs c then (if b then [] else [' ']) ++ collapseGo true cs
      else c :: collapseGo false cs := rfl

/-- Scanning the flank checker across a leading whitespace block only
raises the in-whitespace flag. -/
theorem ntGo_ws_pref (L R : Char → Bool) : ∀ (p t : List Char) (prev : Option Char) (b : Bool),
    (∀ c ∈ p, pyWs c = true) →
    ntGo L R prev b (p ++ t) = ntGo L R prev (if p = [] then b else true) t := by
  intro p
  induction p with
  | nil => intro t prev b _; simp
  | cons c cs ih =>
    intro t prev b hp
    rw [List.cons_append, ntGo_cons, if_pos (hp c (List.mem_cons_self c cs))]
    rw [ih t prev true (fun d hd => hp d (List.mem_cons_of_mem c hd))]
    split <;> simp

/-- With no previous character the flank checker ignores the flag. -/
theorem ntGo_none_flag (L R : Char → Bool) : ∀ (t : List Char) (b b' : Bool),
    ntGo L R none b t = ntGo L R none b' t := by
  intro t
  induction t with
  | nil => intro b b'; rfl
  | cons c cs ih =>
    intro b b'
    rw [ntGo_cons, ntGo_cons]
    by_cases hw : pyWs c
    · rw [if_pos hw, if_pos hw, ih true true]
    · rw [if_neg hw, if_neg hw]
      simp [optL]

/-- A string accepted by the flank checker from any state is accepted
from the initial state. -/
theorem ntGo_relax (L R : Char → Bool) : ∀ (t : List Char) (prev : Option Char) (b : Bool),
    ntGo L R prev b t = true → ntGo L R none false t = true := by
  intro t
  induction t with
  | nil => intro prev b _; rfl
  | cons c cs ih =>
    intro prev b h
    rw [ntGo_cons] at h ⊢
    by_cases hw : pyWs c
    · rw [if_pos hw] at h ⊢
      rw [ntGo_none_flag L R cs true false]
      exact ih prev true h
    · rw [if_neg hw] at h ⊢
      rw [Bool.and_eq_true] at h
      simp only [optL, Bool.and_false, Bool.false_and, Bool.not_false, Bool.true_and]
      exact h.2

/-- The flank checker is closed under taking prefixes. -/
theorem ntGo_pref (L R : Char → Bool) : ∀ (xs ys : List Char) (prev : Option Char) (b : Bool),
    ntGo L R prev b (xs ++ ys) = true → ntGo L R prev b xs = true := by
  intro xs
  induction xs with
  | nil => intro ys prev b _; rfl
  | cons c cs ih =>
    intro ys prev b h
    rw [List.cons_append, ntGo_cons] at h
    rw [ntGo_cons]
    by_cases hw : pyWs c
    · rw [if_pos hw] at h ⊢
      exact ih ys prev true h
    · rw [if_neg hw] at h ⊢
      rw [Bool.and_eq_true] at h ⊢
      exact ⟨h.1, ih ys (some c) false h.2⟩

/-- The whitespace-shape checker is closed under taking prefixes. -/
theorem wsShape_pref : ∀ (xs ys : List Char) (b : Bool),
    wsShape b (xs ++ ys) = true → wsShape b xs = true := by
  intro xs
  induction xs with
  | nil => intro ys b _; rfl
  | cons c cs ih =>
    intro ys b h
    rw [List.cons_append, wsShape_cons] at h
    rw [wsShape_cons]
    by_cases hw : pyWs c
    · rw [if_pos hw] at h ⊢
      rw [Bool.and_eq_true] at h ⊢
      exact ⟨h.1, ih ys true h.2⟩
    · rw [if_neg hw] at h ⊢
      exact ih ys false h

/-- The right trim cuts a whitespace-only suffix off the string. -/
theorem rtrim_decomp : ∀ s : List Char,
    ∃ ys, s = rtrim s ++ ys ∧ ∀ c ∈ ys, pyWs c = true := by
  intro s
  induction s with
  | nil => exact ⟨[], rfl, by simp⟩
  | cons c cs ih =>
    obtain ⟨ys, hys, hws⟩ := ih
    rw [rtrim_cons]
    split
    · rename_i hcond
      rw [Bool.and_eq_true, decide_eq_true_eq] at hcond
      refine ⟨c :: ys, ?_, ?_⟩
      · rw [List.nil_append]
        rw [hys, hcond.1, List.nil_append]
      · intro d hd
        rcases List.mem_cons.1 hd with rfl | hd
        · exact hcond.2
        · exact hws d hd
    · exact ⟨ys, by rw [List.cons_append, ← hys], hws⟩


/-- The flank-rule pass is the identity on strings its checker accepts. -/
theorem ruleGo_id (L R : Char → Bool) : ∀ (s pend : List Char) (prev : Option Char),
    ntGo L R prev (decide (pend ≠ [])) s = true → ruleGo L R prev pend s = pend ++ s := by
  intro s
  induction s with
  | nil => intro pend prev _; rw [ruleGo_nil, List.append_nil]
  | cons c cs ih =>
    intro pend prev h
    rw [ntGo_cons] at h
    rw [ruleGo_cons]
    by_cases hw : pyWs c
    · rw [if_pos hw] at h ⊢
      rw [ih (pend ++ [c]) prev (by simpa using h)]
      simp
    · rw [if_neg hw] at h ⊢
      rw [Bool.and_eq_true] at h
      cases hcond : (decide (pend ≠ []) && optL L prev && R c) with
      | true =>
        rw [hcond] at h
        exact absurd h.1 (by simp)
      | false =>
        rw [if_neg (by simp [hcond])]
        rw [ih [] (some c) (by simpa using h.2)]
        simp

/-- The flank-rule pass establishes its own checker. -/
theorem ruleGo_establish (L R : Char → Bool) : ∀ (s pend : List Char) (prev : Option Char),
    (∀ c ∈ pend, pyWs c = true) →
    ntGo L R prev false (ruleGo L R prev pend s) = true := by
  intro s
  induction s with
  | nil =>
    intro pend prev hp
    rw [ruleGo_nil]
    have := ntGo_ws_pref L R pend [] prev false hp
    rw [List.append_nil] at this
    rw [this]
    split <;> rfl
  | cons c cs ih =>
    intro pend prev hp
    rw [ruleGo_cons]
    by_cases hw : pyWs c
    · rw [if_pos hw]
      exact ih (pend ++ [c]) prev (by
        intro d hd
        rcases List.mem_append.1 hd with hd | hd
        · exact hp d hd
        · rcases List.mem_singleton.1 hd with rfl
          exact hw)
    · rw [if_neg hw]
      split
      · rw [ntGo_cons, if_neg hw]
        rw [Bool.and_eq_true]
        exact ⟨by simp, ih [] (some c) (by simp)⟩
      · rename_i hcond
        rw [Bool.not_eq_true] at hcond
        rw [ntGo_ws_pref L R pend (c :: ruleGo L R (some c) [] cs) prev false hp]
        rw [ntGo_cons, if_neg hw, Bool.and_eq_true]
        refine ⟨?_, ih [] (some c) (by simp)⟩
        by_cases hpe : pend = []
        · simp [hpe]
        · rw [if_neg hpe]
          have : decide (pend ≠ []) = true := by simp [hpe]
          rw [this] at hcond
          simp only [Bool.true_and] at hcond ⊢
          simp [hcond]

/-- The flank-rule pass preserves any other flank checker. -/
theorem ruleGo_preserve (L R L2 R2 : Char → Bool) :
    ∀ (s pend : List Char) (prev : Option Char),
    (∀ c ∈ pend, pyWs c = true) →
    ntGo L2 R2 prev (decide (pend ≠ [])) s = true →
    ntGo L2 R2 prev false (ruleGo L R prev pend s) = true := by
  intro s
  induction s with
  | nil =>
    intro pend prev hp _
    rw [ruleGo_nil]
    have := ntGo_ws_pref L2 R2 pend [] prev false hp
    rw [List.append_nil] at this
    rw [this]
    split <;> rfl
  | cons c cs ih =>
    intro pend prev hp h
    rw [ntGo_cons] at h
    rw [ruleGo_cons]
    by_cases hw : pyWs c
    · rw [if_pos hw] at h ⊢
      exact ih (pend ++ [c]) prev (by
        intro d hd
        rcases List.mem_append.1 hd with hd | hd
        · exact hp d hd
        · rcases List.mem_singleton.1 hd with rfl
          exact hw) (by simpa using h)
    · rw [if_neg hw] at h ⊢
      rw [Bool.and_eq_true] at h
      split
      · rw [ntGo_cons, if_neg hw, Bool.and_eq_true]
        exact ⟨by simp, ih [] (some c) (by simp) (by simpa using h.2)⟩
      · rw [ntGo_ws_pref L2 R2 pend (c :: ruleGo L R (some c) [] cs) prev false hp]
        rw [ntGo_cons, if_neg hw, Bool.and_eq_true]
        refine ⟨?_, ih [] (some c) (by simp) (by simpa using h.2)⟩
        by_cases hpe : pend = []
        · simp [hpe]
        · rw [if_neg hpe]
          have hde : decide (pend ≠ []) = true := by simp [hpe]
          rw [hde] at h
          simpa using h.1


/-- Whitespace collapsing preserves any flank checker. -/
theorem collapseGo_nt (L R : Char → Bool) : ∀ (s : List Char) (prev : Option Char) (b : Bool),
    ntGo L R prev b s = true → ntGo L R prev b (collapseGo b s) = true := by
  intro s
  induction s with
  | nil => intro prev b _; rfl
  | cons c cs ih =>
    intro prev b h
    rw [ntGo_cons] at h
    rw [collapseGo_cons]
    by_cases hw : pyWs c
    · rw [if_pos hw] at h ⊢
      cases b
      · show ntGo L R prev false (' ' :: collapseGo true cs) = true
        rw [ntGo_cons, if_pos (by decide)]
        exact ih prev true h
      · show ntGo L R prev true (collapseGo true cs) = true
        exact ih prev true h
    · rw [if_neg hw] at h ⊢
      rw [Bool.and_eq_true] at h
      rw [ntGo_cons, if_neg hw, Bool.and_eq_true]
      exact ⟨h.1, ih (some c) false h.2⟩

/-- Whitespace collapsing establishes the collapsed-whitespace shape. -/
theorem collapseGo_wsShape : ∀ (s : List Char) (b : Bool),
    wsShape b (collapseGo b s) = true := by
  intro s
  induction s with
  | nil => intro b; rfl
  | cons c cs ih =>
    intro b
    rw [collapseGo_cons]
    by_cases hw : pyWs c
    · rw [if_pos hw]
      cases b
      · show wsShape false (' ' :: collapseGo true cs) = true
        rw [wsShape_cons, if_pos (by decide)]
        simp [ih true]
      · show wsShape true (collapseGo true cs) = true
        exact ih true
    · rw [if_neg hw]
      rw [wsShape_cons, if_neg hw]
      exact ih false

/-- Whitespace collapsing is the identity on collapsed strings. -/
theorem collapseGo_id : ∀ (s : List Char) (b : Bool),
    wsShape b s = true → collapseGo b s = s := by
  intro s
  induction s with
  | nil => intro b _; rfl
  | cons c cs ih =>
    intro b h
    rw [wsShape_cons] at h
    rw [collapseGo_cons]
    by_cases hw : pyWs c
    · rw [if_pos hw] at h ⊢
      rw [Bool.and_eq_true, Bool.and_eq_true] at h
      obtain ⟨⟨hb, hc⟩, htail⟩ := h
      cases b
      · rw [show c = ' ' from by simpa using hc]
        show [' '] ++ collapseGo true cs = ' ' :: cs
        rw [List.singleton_append, ih true htail]
      · exact absurd hb (by simp)
    · rw [if_neg hw] at h ⊢
      rw [ih false h]

/-- The head of a left-trimmed string is never whitespace. -/
theorem ltrim_head : ∀ (s : List Char) (d : Char) (t : List Char),
    ltrim s = d :: t → pyWs d = false := by
  intro s
  induction s with
  | nil => intro d t h; exact absurd h (by simp [ltrim])
  | cons c cs ih =>
    intro d t h
    unfold ltrim at h
    rw [List.dropWhile_cons] at h
    split at h
    · exact ih d t h
    · rename_i hw
      obtain rfl : c = d := (List.cons_eq_cons.1 h).1
      simpa using hw

/-- The right trim is idempotent. -/
theorem rtrim_idem : ∀ s : List Char, rtrim (rtrim s) = rtrim s := by
  intro s
  induction s with
  | nil => rfl
  | cons c cs ih =>
    by_cases hcond : (rtrim cs = [] && pyWs c) = true
    · rw [rtrim_cons, if_pos hcond]
      rfl
    · rw [rtrim_cons, if_neg hcond]
      rw [rtrim_cons, ih, if_neg hcond]

/-- Python strip is idempotent. -/
theorem pyStrip_idem (s : List Char) : pyStrip (pyStrip s) = pyStrip s := by
  unfold pyStrip
  have hl : ltrim (rtrim (ltrim s)) = rtrim (ltrim s) := by
    cases h : rtrim (ltrim s) with
    | nil => simp [ltrim]
    | cons d t =>
      obtain ⟨ys, hys, _⟩ := rtrim_decomp (ltrim s)
      rw [h] at hys
      have hd : pyWs d = false := ltrim_head s d (t ++ ys) (by simpa using hys)
      unfold ltrim
      rw [List.dropWhile_cons, if_neg (by simp [hd])]
  rw [hl, rtrim_idem]

/-- Left trimming preserves a flank checker at the initial state. -/
theorem ntGo_ltrim (L R : Char → Bool) (s : List Char)
    (h : ntGo L R none false s = true) : ntGo L R none false (ltrim s) = true := by
  have hdec : s = s.takeWhile pyWs ++ ltrim s :=
    Eq.symm (List.takeWhile_append_dropWhile pyWs s)
  rw [hdec, ntGo_ws_pref L R _ _ none false
    (fun c hc => List.mem_takeWhile_imp hc)] at h
  split at h
  · exact h
  · exact ntGo_none_flag L R (ltrim s) false true ▸ h

/-- Right trimming preserves a flank checker. -/
theorem ntGo_rtrim (L R : Char → Bool) (s : List Char) (prev : Option Char) (b : Bool)
    (h : ntGo L R prev b s = true) : ntGo L R prev b (rtrim s) = true := by
  obtain ⟨ys, hys, _⟩ := rtrim_decomp s
  rw [hys] at h
  exact ntGo_pref L R (rtrim s) ys prev b h

/-- Left trimming preserves the collapsed-whitespace shape. -/
theorem wsShape_ltrim : ∀ (s : List Char) (b : Bool),
    wsShape b s = true → wsShape false (ltrim s) = true := by
  intro s
  induction s with
  | nil => intro b _; rfl
  | cons c cs ih =>
    intro b h
    rw [wsShape_cons] at h
    by_cases hw : pyWs c
    · rw [if_pos hw] at h
      rw [Bool.and_eq_true] at h
      rw [show ltrim (c :: cs) = ltrim cs from by
        simp [ltrim, List.dropWhile_cons, hw]]
      exact ih true h.2
    · rw [if_neg hw] at h
      rw [show ltrim (c :: cs) = c :: cs from by
        simp [ltrim, List.dropWhile_cons, hw]]
      rw [wsShape_cons, if_neg hw]
      exact h

/-- Right trimming preserves the collapsed-whitespace shape. -/
theorem wsShape_rtrim (s : List Char) (b : Bool)
    (h : wsShape b s = true) : wsShape b (rtrim s) = true := by
  obtain ⟨ys, hys, _⟩ := rtrim_decomp s
  rw [hys] at h
  exact wsShape_pref (rtrim s) ys b h

/-- Identity of one normalizer rule on checked strings, at the pass
level. -/
theorem rulePass_id (L R : Char → Bool) (s : List Char)
    (h : ntGo L R none false s = true) : rulePass L R s = s := by
  have := ruleGo_id L R s [] none (by simpa using h)
  simpa using this

/-- Pass-level form of `ruleGo_establish`. -/
theorem rulePass_establish (L R : Char → Bool) (s : List Char) :
    ntGo L R none false (rulePass L R s) = true :=
  ruleGo_establish L R s [] none (by simp)

/-- Pass-level form of `ruleGo_preserve`. -/
theorem rulePass_preserve (L R L2 R2 : Char → Bool) (s : List Char)
    (h : ntGo L2 R2 none false s = true) :
    ntGo L2 R2 none false (rulePass L R s) = true := by
  apply ruleGo_preserve L R L2 R2 s [] none (by simp)
  simpa using h

/-- C8: the chemical spacing normalizer is idempotent. -/
theorem c8_normalize_idempotent (s : List Char) :
    normalize_chem_spacing (normalize_chem_spacing s) = normalize_chem_spacing s := by
  have main : ∀ u : List Char,
      ntGo asciiLetter asciiDigit none false u = true →
      ntGo asciiDigit rule2R none false u = true →
      ntGo asciiLower asciiUpper none false u = true →
      ntGo rule4L asciiDigit none false u = true →
      wsShape false u = true → pyStrip u = u →
      normalize_chem_spacing u = u := by
    intro u h1 h2 h3 h4 hws hstrip
    unfold normalize_chem_spacing collapseWs
    rw [rulePass_id asciiLetter asciiDigit u h1]
    rw [rulePass_id asciiDigit rule2R u h2]
    rw [rulePass_id asciiLower asciiUpper u h3]
    rw [rulePass_id rule4L asciiDigit u h4]
    rw [collapseGo_id u false hws]
    exact hstrip
  have nt_chain : ∀ L R : Char → Bool,
      ntGo L R none false
        (rulePass rule4L asciiDigit
          (rulePass asciiLower asciiUpper
            (rulePass asciiDigit rule2R
              (rulePass asciiLetter asciiDigit s)))) = true →
      ntGo L R none false (normalize_chem_spacing s) = true := by
    intro L R h
    unfold normalize_chem_spacing pyStrip collapseWs
    exact ntGo_rtrim L R _ none false (ntGo_ltrim L R _ (collapseGo_nt L R _ none false h))
  have pre1 := rulePass_preserve rule4L asciiDigit asciiLetter asciiDigit _
    (rulePass_preserve asciiLower asciiUpper asciiLetter asciiDigit _
      (rulePass_preserve asciiDigit rule2R asciiLetter asciiDigit _
        (rulePass_establish asciiLetter asciiDigit s)))
  have pre2 := rulePass_preserve rule4L asciiDigit asciiDigit rule2R _
    (rulePass_preserve asciiLower asciiUpper asciiDigit rule2R _
      (rulePass_establish asciiDigit rule2R (rulePass asciiLetter asciiDigit s)))
  have pre3 := rulePass_preserve rule4L asciiDigit asciiLower asciiUpper _
    (rulePass_establish asciiLower asciiUpper
      (rulePass asciiDigit rule2R (rulePass asciiLetter asciiDigit s)))
  have est4 := rulePass_establish rule4L asciiDigit
    (rulePass asciiLower asciiUpper
      (rulePass asciiDigit rule2R (rulePass asciiLetter asciiDigit s)))
  have hws : wsShape false (normalize_chem_spacing s) = true := by
    unfold normalize_chem_spacing pyStrip collapseWs
    exact wsShape_rtrim _ false (wsShape_ltrim _ false (collapseGo_wsShape _ false))
  have hstrip : pyStrip (normalize_chem_spacing s) = normalize_chem_spacing s := by
    unfold normalize_chem_spacing
    exact pyStrip_idem _
  exact main (normalize_chem_spacing s)
    (nt_chain _ _ pre1) (nt_chain _ _ pre2) (nt_chain _ _ pre3) (nt_chain _ _ est4)
    hws hstrip


/-- A successful literal match peels the literal off the input. -/
theorem dropLit_append : ∀ (p l r : List Char), dropLit p l = some r → l = p ++ r := by
  intro p
  induction p with
  | nil =>
    intro l r h
    rw [dropLit] at h
    rw [List.nil_append]
    exact (Option.some.injEq r l ▸ by simpa using h.symm : r = l).symm
  | cons c cs ih =>
    intro l r h
    cases l with
    | nil => exact absurd h (by rw [dropLit]; simp)
    | cons d ds =>
      rw [dropLit] at h
      split at h
      · rename_i hcd
        rw [List.cons_append, ← ih ds r h, hcd]
      · exact absurd h (by simp)

/-- Unfolding step of the rewrite engine. -/
theorem rewriteGo_cons (m : Matcher) (fuel : Nat) (c : Char) (cs : List Char) :
    rewriteGo m (fuel + 1) (c :: cs) =
      match m (c :: cs) with
      | some (rep, rest) => rep ++ rewriteGo m fuel rest
      | none => c :: rewriteGo m fuel cs := rfl

/-- The rewrite engine with exhausted fuel returns the input. -/
theorem rewriteGo_zero (m : Matcher) (t : List Char) : rewriteGo m 0 t = t := by
  cases t <;> rfl

/-- A pass whose matcher can only fire on a trigger character is the
identity on trigger-free input. -/
theorem rewriteGo_id (m : Matcher)
    (hm : ∀ t r, m t = some r → ∃ c ∈ t, c ∈ trigChars) :
    ∀ (fuel : Nat) (t : List Char), (∀ c ∈ t, c ∉ trigChars) →
    rewriteGo m fuel t = t := by
  intro fuel
  induction fuel with
  | zero => intro t _; exact rewriteGo_zero m t
  | succ fuel ih =>
    intro t h
    cases t with
    | nil => rfl
    | cons c cs =>
      cases hm2 : m (c :: cs) with
      | some r =>
        obtain ⟨d, hd, htrig⟩ := hm _ _ hm2
        exact absurd htrig (h d hd)
      | none =>
        rw [rewriteGo_cons, hm2]
        show c :: rewriteGo m fuel cs = c :: cs
        rw [ih cs (fun d hd => h d (List.mem_cons_of_mem c hd))]

/-- Pass-level form of `rewriteGo_id`. -/
theorem rewriteAll_id (m : Matcher)
    (hm : ∀ t r, m t = some r → ∃ c ∈ t, c ∈ trigChars)
    (t : List Char) (h : ∀ c ∈ t, c ∉ trigChars) : rewriteAll m t = t :=
  rewriteGo_id m hm t.length t h

/-- A pass whose matcher preserves the non-whitespace subsequence
preserves it globally. -/
theorem rewriteGo_filter (m : Matcher)
    (hm : ∀ t rep rest, m t = some (rep, rest) →
      (rep ++ rest).filter (fun c => !pyWs c) = t.filter (fun c => !pyWs c)) :
    ∀ (fuel : Nat) (t : List Char),
    (rewriteGo m fuel t).filter (fun c => !pyWs c) = t.filter (fun c => !pyWs c) := by
  intro fuel
  induction fuel with
  | zero => intro t; rw [rewriteGo_zero]
  | succ fuel ih =>
    intro t
    cases t with
    | nil => rfl
    | cons c cs =>
      cases hm2 : m (c :: cs) with
      | some r =>
        obtain ⟨rep, rest⟩ := r
        rw [rewriteGo_cons, hm2]
        show (rep ++ rewriteGo m fuel rest).filter _ = _
        rw [List.filter_append, ih rest, ← List.filter_append, hm _ _ _ hm2]
      | none =>
        rw [rewriteGo_cons, hm2]
        show (c :: rewriteGo m fuel cs).filter _ = _
        rw [List.filter_cons, List.filter_cons, ih cs]

/-- Dropping the matched whitespace-like head of a `takeWhile` is the
same as `dropWhile`. -/
theorem drop_length_takeWhile (p : Char → Bool) : ∀ l : List Char,
    l.drop ((l.takeWhile p).length) = l.dropWhile p := by
  intro l
  induction l with
  | nil => rfl
  | cons c cs ih =>
    by_cases hp : p c
    · rw [List.takeWhile_cons_of_pos hp, List.dropWhile_cons_of_pos hp]
      simpa using ih
    · rw [List.takeWhile_cons_of_neg hp, List.dropWhile_cons_of_neg hp]
      rfl

/-- A `takeWhile` over a whitespace-like class has no non-whitespace
characters. -/
theorem filter_takeWhile_ws (p : Char → Bool) (hp : ∀ c, p c = true → pyWs c = true)
    (l : List Char) : (l.takeWhile p).filter (fun c => !pyWs c) = [] :=
  List.filter_eq_nil_iff.2 (fun c hc => by simp [hp c (List.mem_takeWhile_imp hc)])


/-- A fixed-command unwrap only fires on a backslash. -/
theorem unwrapCmd_trig (name : List Char) : ∀ (l : List Char) (r : List Char × List Char),
    unwrapCmd name l = some r → ∃ c ∈ l, c ∈ trigChars := by
  intro l r h
  unfold unwrapCmd at h
  cases hdl : dropLit ('\\' :: name ++ ['\x7b']) l with
  | none => rw [hdl] at h; exact absurd h (by simp)
  | some rest =>
    refine ⟨'\\', ?_, by simp [trigChars]⟩
    rw [dropLit_append _ _ _ hdl]
    exact List.mem_append.2 (Or.inl (List.mem_cons_self _ _))

/-- A literal replacement whose pattern holds a trigger only fires on
that trigger. -/
theorem litRep_trig (pat rep : List Char) (hpat : ∃ c ∈ pat, c ∈ trigChars) :
    ∀ (l : List Char) (r : List Char × List Char),
    litRep pat rep l = some r → ∃ c ∈ l, c ∈ trigChars := by
  intro l r h
  unfold litRep at h
  cases hdl : dropLit pat l with
  | none => rw [hdl] at h; exact absurd h (by simp)
  | some rest =>
    obtain ⟨c, hc, htrig⟩ := hpat
    refine ⟨c, ?_, htrig⟩
    rw [dropLit_append _ _ _ hdl]
    exact List.mem_append.2 (Or.inl hc)

/-- The right-arrow pass only fires on a backslash or a hyphen. -/
theorem arrowRight_trig : ∀ (l : List Char) (r : List Char × List Char),
    arrowRight l = some r → ∃ c ∈ l, c ∈ trigChars := by
  intro l r h
  unfold arrowRight at h
  cases h1 : dropLit ('\\' :: 't' :: 'o' :: []) l with
  | some rest =>
    exact ⟨'\\', by rw [dropLit_append _ _ _ h1]; simp, by simp [trigChars]⟩
  | none =>
    rw [h1] at h
    cases h2 : dropLit ('\\' :: "longrightarrow".data) l with
    | some rest =>
      exact ⟨'\\', by rw [dropLit_append _ _ _ h2]; simp, by simp [trigChars]⟩
    | none =>
      rw [h2] at h
      cases h3 : dropLit "-->".data l with
      | some rest =>
        exact ⟨'-', by
          rw [dropLit_append _ _ _ h3]
          exact List.mem_append_left _ (by decide), by decide⟩
      | none =>
        rw [h3] at h
        cases h4 : dropLit "->".data l with
        | some rest =>
          exact ⟨'-', by
            rw [dropLit_append _ _ _ h4]
            exact List.mem_append_left _ (by decide), by decide⟩
        | none => rw [h4] at h; exact absurd h (by simp)

/-- The double-arrow pass only fires on a backslash or `<`. -/
theorem arrowBoth_trig : ∀ (l : List Char) (r : List Char × List Char),
    arrowBoth l = some r → ∃ c ∈ l, c ∈ trigChars := by
  intro l r h
  unfold arrowBoth at h
  cases h1 : dropLit ('\\' :: "leftrightarrow".data) l with
  | some rest =>
    exact ⟨'\\', by rw [dropLit_append _ _ _ h1]; simp, by simp [trigChars]⟩
  | none =>
    rw [h1] at h
    cases h2 : dropLit "<->".data l with
    | some rest =>
      exact ⟨'<', by
        rw [dropLit_append _ _ _ h2]
        exact List.mem_append_left _ (by decide), by decide⟩
    | none =>
      rw [h2] at h
      cases h3 : dropLit "<=>".data l with
      | some rest =>
        exact ⟨'<', by
          rw [dropLit_append _ _ _ h3]
          exact List.mem_append_left _ (by decide), by decide⟩
      | none => rw [h3] at h; exact absurd h (by simp)

/-- The `\xrightarrow` pass only fires on a backslash. -/
theorem xrightarrowM_trig : ∀ (l : List Char) (r : List Char × List Char),
    xrightarrowM l = some r → ∃ c ∈ l, c ∈ trigChars := by
  intro l r h
  unfold xrightarrowM at h
  cases h1 : dropLit ('\\' :: "xrightarrow".data ++ ['[']) l with
  | some rest =>
    exact ⟨'\\', by rw [dropLit_append _ _ _ h1]; simp, by simp [trigChars]⟩
  | none => rw [h1] at h; exact absurd h (by simp)

/-- The environment-stripping pass only fires on a backslash. -/
theorem beginEndM_trig : ∀ (l : List Char) (r : List Char × List Char),
    beginEndM l = some r → ∃ c ∈ l, c ∈ trigChars := by
  intro l r h
  unfold beginEndM at h
  cases h1 : unwrapCmd "begin".data l with
  | some x => exact unwrapCmd_trig _ l x h1
  | none =>
    rw [h1] at h
    cases h2 : unwrapCmd "end".data l with
    | some x => exact unwrapCmd_trig _ l x h2
    | none => rw [h2] at h; exact absurd h (by simp)

/-- The alignment pass only fires on an ampersand. -/
theorem ampM_trig : ∀ (l : List Char) (r : List Char × List Char),
    ampM l = some r → ∃ c ∈ l, c ∈ trigChars := by
  intro l r h
  unfold ampM at h
  split at h
  · rename_i heq
    refine ⟨'&', ?_, by simp [trigChars]⟩
    exact (List.dropWhile_sublist pyWs).mem (heq ▸ List.mem_cons_self _ _)
  · exact absurd h (by simp)

/-- The OCR-artifact pass only fires on an opening brace. -/
theorem artifactM_trig : ∀ (l : List Char) (r : List Char × List Char),
    artifactM l = some r → ∃ c ∈ l, c ∈ trigChars := by
  intro l r h
  unfold artifactM at h
  split at h
  · exact ⟨'\x7b', List.mem_cons_self _ _, by simp [trigChars]⟩
  · exact absurd h (by simp)

/-- The generic unwrap pass only fires on a backslash. -/
theorem genUnwrapM_trig : ∀ (l : List Char) (r : List Char × List Char),
    genUnwrapM l = some r → ∃ c ∈ l, c ∈ trigChars := by
  intro l r h
  unfold genUnwrapM at h
  split at h
  · exact ⟨'\\', List.mem_cons_self _ _, by simp [trigChars]⟩
  · exact absurd h (by simp)

/-- The generic command-drop pass only fires on a backslash. -/
theorem genDropM_trig : ∀ (l : List Char) (r : List Char × List Char),
    genDropM l = some r → ∃ c ∈ l, c ∈ trigChars := by
  intro l r h
  unfold genDropM at h
  split at h
  · exact ⟨'\\', List.mem_cons_self _ _, by simp [trigChars]⟩
  · exact absurd h (by simp)

/-- The tab/space collapsing pass preserves the non-whitespace
subsequence. -/
theorem tabSpaceM_filter : ∀ (t rep rest : List Char), tabSpaceM t = some (rep, rest) →
    (rep ++ rest).filter (fun c => !pyWs c) = t.filter (fun c => !pyWs c) := by
  intro t rep rest h
  unfold tabSpaceM at h
  split at h
  · obtain ⟨rfl, rfl⟩ : [' '] = rep ∧
        t.drop ((t.takeWhile (fun d => d = ' ' || d = '\t')).length) = rest := by
      simpa using h
    rw [drop_length_takeWhile]
    rw [List.filter_append]
    rw [show List.filter (fun c => !pyWs c) [' '] = [] from by simp [pyWs]]
    rw [List.nil_append]
    conv_rhs => rw [← List.takeWhile_append_dropWhile (fun d => d = ' ' || d = '\t') t]
    rw [List.filter_append]
    rw [filter_takeWhile_ws _ (fun d hd => by
      rcases Bool.or_eq_true _ _ |>.mp hd with h1 | h1 <;>
        simp [pyWs, decide_eq_true_eq.mp h1])]
    rw [List.nil_append]
  · exact absurd h (by simp)

/-- The newline-trimming pass preserves the non-whitespace
subsequence. -/
theorem nlTrimM_filter : ∀ (t rep rest : List Char), nlTrimM t = some (rep, rest) →
    (rep ++ rest).filter (fun c => !pyWs c) = t.filter (fun c => !pyWs c) := by
  intro t rep rest h
  unfold nlTrimM at h
  split at h
  · rename_i r heq
    obtain ⟨rfl, rfl⟩ : ['\n'] = rep ∧ r.dropWhile (· = ' ') = rest := by simpa using h
    conv_rhs => rw [← List.takeWhile_append_dropWhile (· = ' ') t, heq]
    rw [List.filter_append, List.filter_append]
    rw [filter_takeWhile_ws _ (fun d hd => by simp [pyWs, decide_eq_true_eq.mp hd])]
    rw [show List.filter (fun c => !pyWs c) ['\n'] = [] from by simp [pyWs]]
    rw [List.filter_cons_of_neg (by simp [pyWs]), List.nil_append, List.nil_append]
    conv_rhs => rw [← List.takeWhile_append_dropWhile (· = ' ') r]
    rw [List.filter_append]
    rw [filter_takeWhile_ws _ (fun d hd => by simp [pyWs, decide_eq_true_eq.mp hd])]
    rw [List.nil_append]
  · exact absurd h (by simp)

/-- Brace removal is the identity on brace-free strings. -/
theorem rmBraces_id (l : List Char) (h1 : '\x7b' ∉ l) (h2 : '\x7d' ∉ l) :
    rmBraces l = l := by
  unfold rmBraces
  have hin : l.filter (· ≠ '\x7b') = l := List.filter_eq_self.2 (fun a ha => by
    simp only [decide_eq_true_eq]
    rintro rfl
    exact h1 ha)
  rw [hin]
  exact List.filter_eq_self.2 (fun a ha => by
    simp only [decide_eq_true_eq]
    rintro rfl
    exact h2 ha)


/-- Pass-level form of `rewriteGo_filter`. -/
theorem rewriteAll_filter (m : Matcher)
    (hm : ∀ t rep rest, m t = some (rep, rest) →
      (rep ++ rest).filter (fun c => !pyWs c) = t.filter (fun c => !pyWs c))
    (t : List Char) :
    (rewriteAll m t).filter (fun c => !pyWs c) = t.filter (fun c => !pyWs c) :=
  rewriteGo_filter m hm t.length t

/-- C7 fails on the code: the OCR-artifact rule `\{...\}\{=\}` → `" = "`
drops the literal (non-command) content of the first brace group; on
`"{x}{=}"` the output is `"="` and the literal `x` is gone. -/
theorem c7_counterexample :
    convert_latex_to_simple ('\x7b' :: 'x' :: '\x7d' :: '\x7b' :: '=' :: '\x7d' :: []) =
      ('=' :: []) ∧
    'x' ∉ convert_latex_to_simple ('\x7b' :: 'x' :: '\x7d' :: '\x7b' :: '=' :: '\x7d' :: []) := by
  decide

/-- C7 amended: on input containing none of the rewrite-trigger
characters (backslash, ampersand, braces, hyphen, `<`), the converter
only normalizes whitespace: every non-whitespace character of the input
appears in the output, in order.  (In general, characters inside
recognized rewrite patterns — brace groups of the `{...}{=}` artifact,
alignment ampersands, arrow digraphs — and collapsed whitespace are
dropped or rewritten.) -/
theorem c7_amended_literal_preservation (l : List Char)
    (h : ∀ c ∈ l, c ∉ trigChars) :
    (convert_latex_to_simple l).filter (fun c => !pyWs c) =
      l.filter (fun c => !pyWs c) := by
  unfold convert_latex_to_simple pyStrip
  rw [rewriteAll_id (unwrapCmd "mathrm".data) (unwrapCmd_trig _) l h]
  rw [rewriteAll_id (unwrapCmd "text".data) (unwrapCmd_trig _) l h]
  rw [rewriteAll_id (litRep ('\\' :: "uparrow".data) "↑".data)
    (litRep_trig _ _ ⟨'\\', by decide, by decide⟩) l h]
  rw [rewriteAll_id (litRep ('\\' :: "downarrow".data) "↓".data)
    (litRep_trig _ _ ⟨'\\', by decide, by decide⟩) l h]
  rw [rewriteAll_id arrowRight arrowRight_trig l h]
  rw [rewriteAll_id arrowBoth arrowBoth_trig l h]
  rw [rewriteAll_id xrightarrowM xrightarrowM_trig l h]
  rw [rewriteAll_id beginEndM beginEndM_trig l h]
  rw [rewriteAll_id (litRep ('\\' :: '\\' :: []) ('\n' :: []))
    (litRep_trig _ _ ⟨'\\', by decide, by decide⟩) l h]
  rw [rewriteAll_id ampM ampM_trig l h]
  rw [rewriteAll_id artifactM artifactM_trig l h]
  rw [rewriteAll_id genUnwrapM genUnwrapM_trig l h]
  rw [rewriteAll_id genDropM genDropM_trig l h]
  rw [rmBraces_id l (fun hb => h _ hb (by decide)) (fun hb => h _ hb (by decide))]
  rw [rtrim_filter, ltrim_filter]
  rw [rewriteAll_filter nlTrimM nlTrimM_filter]
  rw [rewriteAll_filter tabSpaceM tabSpaceM_filter]

/-- Witness for C7's amended claim on the trigger-free input `"a b"`. -/
theorem c7_witness :
    (∀ c ∈ ('a' :: ' ' :: 'b' :: []), c ∉ trigChars) ∧
    (convert_latex_to_simple ('a' :: ' ' :: 'b' :: [])).filter (fun c => !pyWs c) =
      ('a' :: ' ' :: 'b' :: []).filter (fun c => !pyWs c) :=
  ⟨by decide, c7_amended_literal_preservation ('a' :: ' ' :: 'b' :: []) (by decide)⟩


/-- A successful `findDD` points at an occurrence of `"$$"`. -/
theorem findDD_spec : ∀ (l : List Char) (i : Nat), findDD l = some i →
    l.drop i = '$' :: '$' :: l.drop (i + 2) := by
  intro l
  induction l using findDD.induct with
  | case1 x =>
    intro i h
    obtain rfl : (0 : Nat) = i := by simpa [findDD] using h
    rfl
  | case2 c rest hne ih =>
    intro i h
    rw [findDD.eq_def] at h
    split at h
    · rename_i tail heq
      obtain ⟨h1, h2⟩ := List.cons_eq_cons.1 heq
      exact (hne tail h1 h2).elim
    · rename_i head t heq
      obtain ⟨hc, htr⟩ := List.cons_eq_cons.1 heq
      subst htr
      rw [Option.map_eq_some'] at h
      obtain ⟨j, hj, rfl⟩ := h
      have hspec := ih j hj
      show (c :: rest).drop (j + 1) = '$' :: '$' :: (c :: rest).drop (j + 1 + 2)
      rw [List.drop_succ_cons]
      rw [show j + 1 + 2 = (j + 2) + 1 by ring, List.drop_succ_cons]
      exact hspec
    · exact absurd h (by simp)
  | case3 =>
    intro i h
    exact absurd h (by simp [findDD])

/-- Unfolding step of the block split. -/
theorem splitBlockGo_succ (fuel : Nat) (l : List Char) :
    splitBlockGo (fuel + 1) l =
      match findDD l with
      | none => [l]
      | some i =>
        match findDD (l.drop (i + 2)) with
        | none => [l]
        | some j =>
          l.take i :: ('$' :: '$' :: (l.drop (i + 2)).take j ++ '$' :: '$' :: []) ::
            splitBlockGo fuel ((l.drop (i + 2)).drop (j + 2)) := rfl

/-- The block split is lossless: its parts concatenate back to the
input. -/
theorem splitBlockGo_join : ∀ (fuel : Nat) (l : List Char),
    (splitBlockGo fuel l).flatten = l := by
  intro fuel
  induction fuel with
  | zero => intro l; show ([l] : List (List Char)).flatten = l; simp
  | succ fuel ih =>
    intro l
    cases h1 : findDD l with
    | none => rw [splitBlockGo_succ]; simp [h1]
    | some i =>
      cases h2 : findDD (l.drop (i + 2)) with
      | none => rw [splitBlockGo_succ]; simp only [h1, h2]; simp
      | some j =>
        rw [splitBlockGo_succ]
        simp only [h1, h2]
        rw [List.flatten_cons, List.flatten_cons, ih]
        conv_rhs => rw [← List.take_append_drop i l, findDD_spec l i h1]
        conv_rhs => rw [← List.take_append_drop j (l.drop (i + 2)), findDD_spec _ j h2]
        simp

/-- The parts of the block split concatenate back to the input. -/
theorem splitBlock_join (l : List Char) : (splitBlock l).flatten = l :=
  splitBlockGo_join (l.length + 1) l

/-- The head of a `dropWhile` fails the predicate. -/
theorem dropWhile_head (p : Char → Bool) : ∀ (l : List Char) (d : Char) (t : List Char),
    l.dropWhile p = d :: t → p d = false := by
  intro l
  induction l with
  | nil => intro d t h; exact absurd h (by simp)
  | cons c cs ih =>
    intro d t h
    rw [List.dropWhile_cons] at h
    split at h
    · exact ih d t h
    · rename_i hp
      obtain rfl : c = d := (List.cons_eq_cons.1 h).1
      simpa using hp

/-- Unfolding step of the inline split. -/
theorem splitInlineGo_succ (fuel : Nat) (acc : List Char) (c : Char) (rest : List Char) :
    splitInlineGo (fuel + 1) acc (c :: rest) =
      if c = '$' then
        match rest.dropWhile (· ≠ '$') with
        | '$' :: after =>
          if rest.takeWhile (· ≠ '$') = [] then splitInlineGo fuel (acc ++ ['$']) rest
          else acc :: ('$' :: rest.takeWhile (· ≠ '$') ++ ['$']) :: splitInlineGo fuel [] after
        | _ => [acc ++ '$' :: rest]
      else splitInlineGo fuel (acc ++ [c]) rest := rfl

/-- The inline split is lossless: its parts concatenate back to the
accumulated prefix plus the remaining input. -/
theorem splitInlineGo_join : ∀ (fuel : Nat) (acc l : List Char),
    (splitInlineGo fuel acc l).flatten = acc ++ l := by
  intro fuel
  induction fuel with
  | zero => intro acc l; show ([acc ++ l] : List (List Char)).flatten = acc ++ l; simp
  | succ fuel ih =>
    intro acc l
    cases l with
    | nil => show ([acc] : List (List Char)).flatten = acc ++ []; simp
    | cons c rest =>
      rw [splitInlineGo_succ]
      by_cases hc : c = '$'
      · rw [if_pos hc]
        subst hc
        cases hd : rest.dropWhile (· ≠ '$') with
        | nil => simp
        | cons d after =>
          obtain rfl : d = '$' := by
            have := dropWhile_head _ rest d after hd
            simpa using this
          show (if rest.takeWhile (· ≠ '$') = [] then splitInlineGo fuel (acc ++ ['$']) rest
            else acc :: ('$' :: rest.takeWhile (· ≠ '$') ++ ['$']) ::
              splitInlineGo fuel [] after).flatten = acc ++ '$' :: rest
          split
          · rw [ih (acc ++ ['$']) rest]
            simp
          · rw [List.flatten_cons, List.flatten_cons, ih [] after, List.nil_append]
            conv_rhs => rw [← List.takeWhile_append_dropWhile (· ≠ '$') rest, hd]
            simp
      · rw [if_neg hc, ih (acc ++ [c]) rest]
        simp

/-- The parts of the inline split concatenate back to the input. -/
theorem splitInline_join (l : List Char) : (splitInline l).flatten = l := by
  have := splitInlineGo_join (l.length + 1) [] l
  simpa [splitInline] using this

/-- Re-wrapping the segments of one inline part recovers the part. -/
theorem inlSeg_wrap (inl : List Char)
    (hf : dollarWrapped inl = true →
      inl = '$' :: (slice11 inl ++ '$' :: []) ∧
      convert_latex_to_simple (slice11 inl) = slice11 inl)
    (ht : dollarWrapped inl = false → inl = [] ∨ pyStrip inl ≠ []) :
    ((inlSeg inl).map wrapSeg).flatten = inl := by
  unfold inlSeg
  by_cases h0 : inl = []
  · simp [h0]
  rw [if_neg h0]
  by_cases hdw : dollarWrapped inl = true
  · obtain ⟨hshape, hconv⟩ := hf hdw
    rw [if_pos hdw]
    show ('$' :: (convert_latex_to_simple (slice11 inl) ++ '$' :: [])) ++ [] = inl
    rw [hconv, List.append_nil]
    exact hshape.symm
  · have hdw2 : dollarWrapped inl = false := by simpa using hdw
    rw [if_neg hdw]
    rcases ht hdw2 with h1 | h1
    · exact absurd h1 h0
    · rw [if_neg h1]
      show inl ++ [] = inl
      simp

/-- Keeping no separator keeps the list whole under `splitOn`. -/
theorem splitOn_no_sep (a : Char) (l : List Char) (h : a ∉ l) :
    l.splitOn a = [l] := by
  unfold List.splitOn
  refine List.splitOnP_eq_single _ _ (fun x hx hbeq => h ?_)
  rw [beq_iff_eq] at hbeq
  exact hbeq ▸ hx

/-- Re-wrapping the segments of one block-split part recovers the
part. -/
theorem partSegs_wrap (part : List Char)
    (hb : dollarDollarWrapped part = true →
      part = '$' :: '$' :: (slice22 part ++ '$' :: '$' :: []) ∧
      convert_latex_to_simple (slice22 part) = slice22 part ∧
      pyStrip (slice22 part) = slice22 part ∧
      slice22 part ≠ [] ∧ '\n' ∉ slice22 part)
    (ht : dollarDollarWrapped part = false →
      ∀ inl ∈ splitInline part,
        (dollarWrapped inl = true →
          inl = '$' :: (slice11 inl ++ '$' :: []) ∧
          convert_latex_to_simple (slice11 inl) = slice11 inl) ∧
        (dollarWrapped inl = false → inl = [] ∨ pyStrip inl ≠ [])) :
    ((partSegs part).map wrapSeg).flatten = part := by
  unfold partSegs
  by_cases h0 : part = []
  · simp [h0]
  rw [if_neg h0]
  by_cases hdw : dollarDollarWrapped part = true
  · obtain ⟨hshape, hconv, hstrip, hne, hnl⟩ := hb hdw
    rw [if_pos hdw]
    unfold blockSegs
    rw [hstrip, hconv]
    rw [splitOn_no_sep '\n' (slice22 part) hnl]
    rw [show ([slice22 part].flatMap fun line =>
        if pyStrip line = [] then [] else [(SegKind.blockFormula, pyStrip line)]) =
      [(SegKind.blockFormula, slice22 part)] from by
        simp [List.flatMap_cons, hstrip, hne]]
    show ('$' :: '$' :: (slice22 part ++ '$' :: '$' :: [])) ++ [] = part
    rw [List.append_nil]
    exact hshape.symm
  · have hdw2 : dollarDollarWrapped part = false := by simpa using hdw
    rw [if_neg hdw]
    unfold inlineSegs
    have hjoin : ∀ inls : List (List Char),
        (∀ inl ∈ inls, ((inlSeg inl).map wrapSeg).flatten = inl) →
        (((inls.flatMap inlSeg)).map wrapSeg).flatten = inls.flatten := by
      intro inls
      induction inls with
      | nil => intro _; rfl
      | cons x xs ih =>
        intro hall
        rw [List.flatMap_cons, List.map_append, List.flatten_append]
        rw [hall x (List.mem_cons_self x xs), ih (fun y hy => hall y (List.mem_cons_of_mem x hy))]
        rw [List.flatten_cons]
    rw [hjoin (splitInline part) (fun inl hinl =>
      inlSeg_wrap inl ((ht hdw2) inl hinl).1 ((ht hdw2) inl hinl).2)]
    exact splitInline_join part

/-- C6 fails on the code: formula bodies go through the command-to-glyph
converter before becoming segment content, so on `"$ $"` (no
unterminated delimiters) the single inline segment's content is the
empty string and the non-delimiter space is lost. -/
theorem c6_counterexample :
    parse_content ('$' :: ' ' :: '$' :: []) = [(SegKind.inlineFormula, [])] ∧
    ((parse_content ('$' :: ' ' :: '$' :: [])).map (fun seg => seg.2)).flatten = [] := by
  decide

/-- C6 amended: for inputs whose `$$` parts wrap a body that is already
converted, stripped, non-empty and single-line, and whose remaining
parts split into `$...$` formulas with already-converted bodies and text
spans that are empty or not whitespace-only, re-attaching each segment's
delimiters and concatenating recovers the input exactly — every
non-delimiter character is recovered.  (In general the converter may
rewrite formula bodies and whitespace-only text spans are dropped.) -/
theorem c6_amended_segmenter_roundtrip (l : List Char)
    (hb : ∀ part ∈ splitBlock l, dollarDollarWrapped part = true →
      part = '$' :: '$' :: (slice22 part ++ '$' :: '$' :: []) ∧
      convert_latex_to_simple (slice22 part) = slice22 part ∧
      pyStrip (slice22 part) = slice22 part ∧
      slice22 part ≠ [] ∧ '\n' ∉ slice22 part)
    (ht : ∀ part ∈ splitBlock l, dollarDollarWrapped part = false →
      ∀ inl ∈ splitInline part,
        (dollarWrapped inl = true →
          inl = '$' :: (slice11 inl ++ '$' :: []) ∧
          convert_latex_to_simple (slice11 inl) = slice11 inl) ∧
        (dollarWrapped inl = false → inl = [] ∨ pyStrip inl ≠ [])) :
    ((parse_content l).map wrapSeg).flatten = l := by
  unfold parse_content
  have hjoin : ∀ parts : List (List Char),
      (∀ p ∈ parts, ((partSegs p).map wrapSeg).flatten = p) →
      (((parts.flatMap partSegs)).map wrapSeg).flatten = parts.flatten := by
    intro parts
    induction parts with
    | nil => intro _; rfl
    | cons x xs ih =>
      intro hall
      rw [List.flatMap_cons, List.map_append, List.flatten_append]
      rw [hall x (List.mem_cons_self x xs), ih (fun y hy => hall y (List.mem_cons_of_mem x hy))]
      rw [List.flatten_cons]
  rw [hjoin (splitBlock l) (fun p hp => partSegs_wrap p (hb p hp) (ht p hp))]
  exact splitBlock_join l

/-- Witness for C6's amended claim on `"a $x$ b $$H2O$$ c"`. -/
theorem c6_witness :
    (∀ part ∈ splitBlock "a $x$ b $$H2O$$ c".data, dollarDollarWrapped part = true →
      part = '$' :: '$' :: (slice22 part ++ '$' :: '$' :: []) ∧
      convert_latex_to_simple (slice22 part) = slice22 part ∧
      pyStrip (slice22 part) = slice22 part ∧
      slice22 part ≠ [] ∧ '\n' ∉ slice22 part) ∧
    (∀ part ∈ splitBlock "a $x$ b $$H2O$$ c".data, dollarDollarWrapped part = false →
      ∀ inl ∈ splitInline part,
        (dollarWrapped inl = true →
          inl = '$' :: (slice11 inl ++ '$' :: []) ∧
          convert_latex_to_simple (slice11 inl) = slice11 inl) ∧
        (dollarWrapped inl = false → inl = [] ∨ pyStrip inl ≠ [])) ∧
    ((parse_content "a $x$ b $$H2O$$ c".data).map wrapSeg).flatten =
      "a $x$ b $$H2O$$ c".data :=
  ⟨by decide, by decide,
    c6_amended_segmenter_roundtrip "a $x$ b $$H2O$$ c".data (by decide) (by decide)⟩

end ChemVit
